import Mathlib

/-!
# A verification development for the `frum` version-manager core

This file gives a shallow embedding, in Lean 4, of the version-resolution and
installation engine of the `frum` Ruby version manager, and settles a list of
claims about it.  Rust strings are modelled as `List Char`; fallible Rust
functions returning `Result` are modelled as `Option`/`Except` valued Lean
functions; filesystem state is passed explicitly.

The embedding follows the Rust sources (`src/version.rs`,
`src/commands/local.rs`, `src/commands/install.rs`).  Behaviour of the
`semver` crate (version 0.9, used by `Version::parse`, `Display` and the
derived ordering) is modelled from the semantic-versioning grammar it
implements.  Repository modules that only exist as callers here
(`config.rs`, `version_file.rs`, `symlink.rs`, `commands/global.rs`,
`input_version.rs`) are modelled from the specification; each such
definition is marked `Modelled from the spec:`.
-/

deriving instance DecidableEq for Except

/-- Rust `String`/`&str` values are modelled as lists of characters. -/
abbrev Str := List Char

/-- ASCII decimal digit test (`char::is_digit(10)` in Rust). -/
def isDigitCh (c : Char) : Bool := 48 ≤ c.toNat ∧ c.toNat ≤ 57

/-- Characters permitted inside a semantic-version prerelease/build
identifier: ASCII alphanumerics and the hyphen. -/
def identCh (c : Char) : Bool :=
  isDigitCh c ∨ (65 ≤ c.toNat ∧ c.toNat ≤ 90) ∨ (97 ≤ c.toNat ∧ c.toNat ≤ 122) ∨ c.toNat = 45

/-- Whitespace as trimmed by Rust `str::trim` (restricted to the ASCII
whitespace actually relevant here). -/
def isWsCh (c : Char) : Bool := c.toNat = 32 ∨ c.toNat = 9 ∨ c.toNat = 10 ∨ c.toNat = 13

/-- ASCII lowercasing of one character, the fragment of Rust
`str::to_lowercase` exercised by version strings. -/
def lowerCh (c : Char) : Char :=
  if 65 ≤ c.toNat ∧ c.toNat ≤ 90 then Char.ofNat (c.toNat + 32) else c

/-- Lowercasing a whole string (`str::to_lowercase`). -/
def lowerStr (s : Str) : Str := s.map lowerCh

/-- `str::trim`: drop whitespace from both ends. -/
def trimStr (s : Str) : Str :=
  ((s.dropWhile isWsCh).reverse.dropWhile isWsCh).reverse

/-- Numeric value of a digit string read in base 10 (most significant first). -/
def digitsVal (s : Str) : Nat := s.foldl (fun acc c => acc * 10 + (c.toNat - 48)) 0

/-- The character for a single decimal digit. -/
def digitCh (d : Nat) : Char := Char.ofNat (48 + d)

/-- Decimal rendering of a positive number, most significant digit first;
the first argument is recursion fuel (`n` itself is enough fuel). -/
def natCharsAux : Nat → Nat → Str
  | 0, _ => []
  | _ + 1, 0 => []
  | fuel + 1, n + 1 => natCharsAux fuel ((n + 1) / 10) ++ [digitCh ((n + 1) % 10)]

/-- Decimal rendering of a natural number, as Rust `u64`'s `Display`. -/
def natChars (n : Nat) : Str := if n = 0 then ['0'] else natCharsAux n n

/-- Split a string at the first occurrence of `c`: returns the part before
it and, when `c` occurs, the part after it. -/
def splitFirst (c : Char) : Str → Str × Option Str
  | [] => ([], none)
  | x :: xs =>
    if x = c then ([], some xs)
    else
      let p := splitFirst c xs
      (x :: p.1, p.2)

/-- Split a string on every occurrence of `c` (Rust `str::split`): always at
least one piece, empty pieces kept. -/
def splitAll (c : Char) : Str → List Str
  | [] => [[]]
  | x :: xs =>
    if x = c then [] :: splitAll c xs
    else
      match splitAll c xs with
      | [] => [[x]]
      | p :: ps => (x :: p) :: ps

/-- Join pieces with the separator `c` (left inverse of `splitAll c`). -/
def joinSep (c : Char) : List Str → Str
  | [] => []
  | [p] => p
  | p :: q :: ps => p ++ c :: joinSep c (q :: ps)

/-! ## The semver data model (the `semver` 0.9 crate)

`semver::Version` is a record of major/minor/patch numbers plus prerelease
and build identifier lists; an identifier is either numeric or
alphanumeric. -/

/-- `semver::Identifier`. -/
inductive SvIdent where
  | num (n : Nat)
  | alphanum (s : Str)
deriving DecidableEq

/-- `semver::Version`.  Rust `u64` components are modelled as `Nat`; the
overflow boundary of `u64` is not exercised by any claim. -/
structure SemVer where
  major : Nat
  minor : Nat
  patch : Nat
  pre : List SvIdent
  build : List SvIdent
deriving DecidableEq

/-- Classification of a raw identifier token: all-digit tokens without a
redundant leading zero are numeric, everything else is alphanumeric. -/
def classifyIdent (s : Str) : SvIdent :=
  if s.all isDigitCh ∧ (s = ['0'] ∨ s.head? ≠ some ('0')) then
    .num (digitsVal s)
  else .alphanum s

/-- Parse one prerelease/build identifier: it must be a non-empty run of
identifier characters. -/
def parseIdent (s : Str) : Option SvIdent :=
  if s = [] ∨ ¬ s.all identCh then none else some (classifyIdent s)

/-- Parse one numeric version component: non-empty, all digits, no leading
zero (`0` itself allowed). -/
def parseNumeral (s : Str) : Option Nat :=
  if s ≠ [] ∧ s.all isDigitCh ∧ (s = ['0'] ∨ s.head? ≠ some ('0')) then
    some (digitsVal s)
  else none

/-- Parse the dotted `major.minor.patch` core. -/
def parseTriple (s : Str) : Option (Nat × Nat × Nat) :=
  match splitAll ('.') s with
  | [a, b, c] => do
    let x ← parseNumeral a
    let y ← parseNumeral b
    let z ← parseNumeral c
    pure (x, y, z)
  | _ => none

/-- Parse a dot-separated identifier list (prerelease or build section). -/
def parseIdents (s : Str) : Option (List SvIdent) :=
  (splitAll ('.') s).mapM parseIdent

/-- An absent prerelease/build section parses to the empty identifier list,
a present one through `parseIdents`. -/
def parseOptIdents : Option Str → Option (List SvIdent)
  | none => some []
  | some p => parseIdents p

/-- Modelled from the `semver` 0.9 crate: `semver::Version::parse`.  The
input is trimmed, the build section is everything after the first `+`, the
prerelease section everything after the first `-` before that, and the rest
must be a dotted numeric triple. -/
def semverParse (input : Str) : Option SemVer :=
  let s := trimStr input
  let corePlus := splitFirst ('+') s
  let numsPre := splitFirst ('-') corePlus.1
  match parseTriple numsPre.1 with
  | none => none
  | some t =>
    match parseOptIdents numsPre.2 with
    | none => none
    | some pre =>
      match parseOptIdents corePlus.2 with
      | none => none
      | some build => some ⟨t.1, t.2.1, t.2.2, pre, build⟩

/-- Rendering of one identifier (`semver::Identifier`'s `Display`). -/
def renderIdent : SvIdent → Str
  | .num n => natChars n
  | .alphanum s => s

/-- Modelled from the `semver` 0.9 crate: `semver::Version`'s `Display`:
`major.minor.patch`, then `-pre…` when the prerelease list is non-empty,
then `+build…` when the build list is non-empty. -/
def semverRender (v : SemVer) : Str :=
  natChars v.major ++ '.' :: natChars v.minor ++ '.' :: natChars v.patch
    ++ (if v.pre = [] then [] else '-' :: joinSep ('.') (v.pre.map renderIdent))
    ++ (if v.build = [] then [] else '+' :: joinSep ('.') (v.build.map renderIdent))

/-- Well-formedness of an identifier: it renders to a token that parses back
to itself.  Numeric identifiers are always well-formed; an alphanumeric one
must be a non-empty identifier-character run that `classifyIdent` does not
classify as numeric. -/
def wfIdent : SvIdent → Bool
  | .num _ => true
  | .alphanum s =>
    s ≠ [] ∧ s.all identCh ∧
      ¬ (s.all isDigitCh ∧ (s = ['0'] ∨ s.head? ≠ some ('0')))

/-- Well-formedness of a `SemVer` value: all prerelease and build
identifiers are well-formed. -/
def svWf (v : SemVer) : Bool := v.pre.all wfIdent ∧ v.build.all wfIdent

/-! ## The repository's `Version` type (`src/version.rs`) -/

/-- `src/version.rs`: `enum Version { Semver(semver::Version), Alias(String) }`.
The constructor order matters: the derived Rust `Ord` orders `Semver`
values before `Alias` values. -/
inductive Version where
  | semver (v : SemVer)
  | alias (a : Str)
deriving DecidableEq

/-- `src/version.rs`: `start_with_number` — the first character, if any, is
a decimal digit. -/
def start_with_number (s : Str) : Bool :=
  (s.head?.map isDigitCh).getD false

/-- `src/version.rs`: `Version::parse`.  The input is lowercased; if, after
stripping every leading `v`, it starts with a digit, it is parsed as a
semantic version (this can fail, modelled by `none`); otherwise the
lowercased input becomes an `Alias`.  The Rust `Result`'s error payload
(`semver::SemVerError`) carries no information used anywhere, so the result
is modelled as an `Option`. -/
def Version.parse (version_str : Str) : Option Version :=
  let lowercased := lowerStr version_str
  if start_with_number (lowercased.dropWhile (fun c => c = 'v')) then
    let version_plain := lowercased.dropWhile (fun c => c = 'v')
    (semverParse version_plain).map Version.semver
  else some (Version.alias lowercased)

/-- `src/version.rs`: the `Display` instance — `v` followed by the semver
rendering for `Semver`, the alias string itself for `Alias`; `v_str` is
`format!` over this instance. -/
def Version.v_str : Version → Str
  | .semver v => 'v' :: semverRender v
  | .alias a => a

/-- `src/version.rs`: `Version::alias_name` — `v_str` of an alias, nothing
for a semver value. -/
def Version.alias_name : Version → Option Str
  | v@(.alias _) => some v.v_str
  | _ => none

/-! ### Derived comparison and equality (the Rust `derive` on `Version`)

`Version` derives `Ord`; for the `Semver` payload this delegates to
`semver::Version`'s hand-written `Ord`, which compares major, minor and
patch numerically, then treats an absent prerelease as greater than any
present one, then compares prerelease lists lexicographically; build
metadata is ignored by the ordering.  The derived `PartialEq`, by contrast,
delegates to `semver::Version`'s structural equality, which does include
build metadata. -/

/-- Lexicographic comparison of lists from an element comparison (the
derived `Ord` of Rust `Vec`). -/
def lexCompare (cmp : α → α → Ordering) : List α → List α → Ordering
  | [], [] => .eq
  | [], _ :: _ => .lt
  | _ :: _, [] => .gt
  | a :: as_, b :: bs => (cmp a b).then (lexCompare cmp as_ bs)

/-- Rust's three-way comparison on unsigned integers. -/
def natCompare (a b : Nat) : Ordering :=
  if a < b then .lt else if a = b then .eq else .gt

/-- Rust `char` comparison: by Unicode scalar value. -/
def charCompare (a b : Char) : Ordering := natCompare a.toNat b.toNat

/-- The derived `Ord` of `semver::Identifier`: numeric identifiers order
before alphanumeric ones, numerics by value, alphanumerics lexically. -/
def identCompare : SvIdent → SvIdent → Ordering
  | .num a, .num b => natCompare a b
  | .num _, .alphanum _ => .lt
  | .alphanum _, .num _ => .gt
  | .alphanum a, .alphanum b => lexCompare charCompare a b

/-- `semver` 0.9's prerelease comparison: no prerelease is greater than any
prerelease; two present prereleases compare lexicographically. -/
def preCompare (a b : List SvIdent) : Ordering :=
  match a, b with
  | [], [] => .eq
  | [], _ :: _ => .gt
  | _ :: _, [] => .lt
  | a, b => lexCompare identCompare a b

/-- Modelled from the `semver` 0.9 crate: `semver::Version`'s `Ord`
(build metadata ignored). -/
def semverCompare (a b : SemVer) : Ordering :=
  (natCompare a.major b.major).then
    ((natCompare a.minor b.minor).then
      ((natCompare a.patch b.patch).then (preCompare a.pre b.pre)))

/-- The derived `Ord` of the repository's `Version` enum: `Semver` before
`Alias`, payloads compared componentwise. -/
def versionCompare : Version → Version → Ordering
  | .semver a, .semver b => semverCompare a b
  | .semver _, .alias _ => .lt
  | .alias _, .semver _ => .gt
  | .alias a, .alias b => lexCompare charCompare a b

/-- The derived `PartialEq` of the repository's `Version` enum (structural,
build metadata included in the `Semver` payload). -/
def versionBeq : Version → Version → Bool
  | .semver a, .semver b => a = b
  | .alias a, .alias b => a = b
  | _, _ => false

/-- `src/version.rs`: `impl PartialEq<semver::Version> for Version` — a
`Semver` compares structurally against the bare semver value, an `Alias` is
never equal to one. -/
def eqSemver : Version → SemVer → Bool
  | .semver v, other => v = other
  | .alias _, _ => false

/-! ## Directory layout (`src/version.rs` path functions)

Paths are modelled as lists of path segments; `PathBuf::join` with a
single-component suffix appends one segment. -/

/-- A filesystem path, as its list of segments. -/
abbrev FsPath := List Str

/-- Modelled from the spec: `config.rs` is not under `src/`.  Per §4.2 the
installations directory is `base/versions`. -/
def versions_dir (base : FsPath) : FsPath := base ++ [('v' :: ('e' :: ('r' :: ('s' :: ('i' :: ('o' :: ('n' :: ('s' :: []))))))))]

/-- Modelled from the spec: `config.rs` is not under `src/`.  Per §4.2 the
aliases directory is `base/aliases`. -/
def aliases_dir (base : FsPath) : FsPath := base ++ [('a' :: ('l' :: ('i' :: ('a' :: ('s' :: ('e' :: ('s' :: [])))))))]

/-- `src/version.rs`: `Version::installation_path` — an alias lives at
`aliases_dir/alias_name`, a semver version at
`versions_dir/v_str/installation`.  The Rust function wraps the result in
`Some` unconditionally; the `Option` is dropped here. -/
def Version.installation_path (base : FsPath) : Version → FsPath
  | v@(.alias _) => aliases_dir base ++ [(v.alias_name.getD [])]
  | v@(.semver _) =>
    versions_dir base ++ [v.v_str, ('i' :: ('n' :: ('s' :: ('t' :: ('a' :: ('l' :: ('l' :: ('a' :: ('t' :: ('i' :: ('o' :: ('n' :: []))))))))))))]

/-! ## The symlink switch and the `local` command (`src/commands/local.rs`)

`Local::apply` mutates exactly one symlink: the one at the shell's
`farm_path`.  Its state, together with injectable failure of the two
symlink primitives, is modelled explicitly.  The `global` command acts the
same way on the global-default link. -/

/-- An I/O error from one of the two symlink primitives; the payload
records which primitive produced it. -/
inductive IoErr where
  | removeErr
  | createErr
deriving DecidableEq

/-- The filesystem state seen by one symlink-switch operation: the current
target of the link being switched (`none` when the link is absent), and
injected failure switches for the two primitives. -/
structure LinkFs where
  target : Option FsPath
  removeFails : Bool
  createFails : Bool
deriving DecidableEq

/-- Modelled from the spec: `symlink.rs` is not under `src/`.
`remove_symlink_dir` deletes the link; with failure injected it errors and
leaves the state unchanged. -/
def remove_symlink_dir (fs : LinkFs) : Except IoErr Unit × LinkFs :=
  if fs.removeFails then (.error .removeErr, fs)
  else (.ok (), { fs with target := none })

/-- Modelled from the spec: `symlink.rs` is not under `src/`.
`create_symlink_dir` points the link at `fromPath`; with failure injected
it errors and leaves the state unchanged. -/
def create_symlink_dir (fromPath : FsPath) (fs : LinkFs) : Except IoErr Unit × LinkFs :=
  if fs.createFails then (.error .createErr, fs)
  else (.ok (), { fs with target := some fromPath })

/-- Rust `Result::and`: keep the first error, otherwise the second result. -/
def resultAnd : Except ε α → Except ε β → Except ε β
  | .error e, _ => .error e
  | .ok _, r => r

/-- `src/commands/local.rs`: `replace_symlink` — remove the old link first,
then create the new one; a creation error is reported through
`deletion_result.and(err)`. -/
def replace_symlink (fromPath : FsPath) (fs : LinkFs) : Except IoErr Unit × LinkFs :=
  let del := remove_symlink_dir fs
  match create_symlink_dir fromPath del.2 with
  | (.ok u, fs2) => (.ok u, fs2)
  | (.error e, fs2) => (resultAnd del.1 (.error e), fs2)

/-- Modelled from the spec: `input_version.rs` is not under `src/`.  An
input version denotes a requested version identifier; the engine only ever
uses its rendered string (`to_string`), so it is modelled by that string. -/
structure InputVersion where
  str : Str
deriving DecidableEq

/-- `src/commands/local.rs`: the `FarmError` enum of the `local` command
(the `reqwest` transport variant is never produced by the modelled code
paths and is omitted). -/
inductive LocalError where
  | ioError (e : IoErr)
  | farmPathNotFound
  | versionNotFound (version : InputVersion)
  | cantInferVersion
deriving DecidableEq

/-- Modelled from the spec: `version_file.rs` is not under `src/`.  Per
§4.4 the version-file lookup walks from `cwd` upward; the ancestor chain is
modelled as the list of each directory's version-file content (innermost
first), and the walk stops at the first directory that has one. -/
def get_user_version_for_directory : List (Option InputVersion) → Option InputVersion
  | [] => none
  | some v :: _ => some v
  | none :: rest => get_user_version_for_directory rest

/-- The configuration threaded into every command.  Modelled from the spec:
`config.rs` is not under `src/`.  `base` locates the layout of §4.2,
`defaultVersionDir` is the directory behind the global default
(`config.default_version_dir()`), `farmPath` is `config.farm_path`
(the shell's active link location, `none` when the environment variable is
missing), and `installed` is the set of directories currently existing
under the filesystem, as the existence checks see it. -/
structure FarmConfig where
  base : FsPath
  defaultVersionDir : FsPath
  farmPath : Option FsPath
  installed : List FsPath
deriving DecidableEq

/-- `src/commands/local.rs`: the tail of `Local::apply` once
`current_version` has been determined — check that
`versions_dir/current_version.to_string()` exists (else
`VersionNotFound`), require `farm_path` (else `FarmPathNotFound`), then
`replace_symlink` the active link to the installation. -/
def applyDetermined (current_version : InputVersion) (config : FarmConfig)
    (fs : LinkFs) : Except LocalError Unit × LinkFs :=
  if (versions_dir config.base ++ [current_version.str]) ∈ config.installed then
    match config.farmPath with
    | none => (.error .farmPathNotFound, fs)
    | some _ =>
      match replace_symlink (versions_dir config.base ++ [current_version.str]) fs with
      | (.ok u, fs2) => (.ok u, fs2)
      | (.error e, fs2) => (.error (.ioError e), fs2)
  else (.error (.versionNotFound current_version), fs)

/-- `src/commands/local.rs`: `Local::apply`.  The version acted on is the
explicit `self.version` when present, otherwise the nearest ancestor's
version file; when neither exists the active link is repointed at
`default_version_dir` and `CantInferVersion` is returned (`FarmPathNotFound`
when `farm_path` is missing, an `IoError` when the repointing itself
fails). -/
def localApply (explicitVersion : Option InputVersion)
    (ancestors : List (Option InputVersion)) (config : FarmConfig)
    (fs : LinkFs) : Except LocalError Unit × LinkFs :=
  match explicitVersion with
  | some v => applyDetermined v config fs
  | none =>
    match get_user_version_for_directory ancestors with
    | some v => applyDetermined v config fs
    | none =>
      match config.farmPath with
      | none => (.error .farmPathNotFound, fs)
      | some _ =>
        match replace_symlink config.defaultVersionDir fs with
        | (.ok _, fs2) => (.error .cantInferVersion, fs2)
        | (.error e, fs2) => (.error (.ioError e), fs2)

/-- Modelled from the spec: `commands/global.rs` is not under `src/`.  Per
§4.5 the `global` command is the same switch against the global-default
link: it requires the target installation to exist (else `VersionNotFound`)
and then repoints its link.  `fs` here is the state of the global-default
link. -/
def globalApply (version : InputVersion) (config : FarmConfig)
    (fs : LinkFs) : Except LocalError Unit × LinkFs :=
  if (versions_dir config.base ++ [version.str]) ∈ config.installed then
    match replace_symlink (versions_dir config.base ++ [version.str]) fs with
    | (.ok u, fs2) => (.ok u, fs2)
    | (.error e, fs2) => (.error (.ioError e), fs2)
  else (.error (.versionNotFound version), fs)

/-! ## The install pipeline tail (`src/commands/install.rs`)

The network, archive extraction and the external build are collaborators;
their observable outcomes are inputs of the model.  What the engine itself
does — the 404 mapping, the empty-archive check, the choice of directory
handed to `build_package`, and the final rename — is translated from
`Install::apply`. -/

/-- `src/commands/install.rs`: the `FarmError` enum of the `install`
command. -/
inductive InstallError where
  | httpError
  | ioError
  | extractError
  | tarIsEmpty
  | versionNotFound (version : Str)
deriving DecidableEq

/-- The collaborator outcomes seen by one `install` run: the HTTP status of
the mirror's response, whether extraction fails, the top-level entries of
the extraction temp directory in enumeration order, and whether the final
rename fails. -/
structure InstallEnv where
  status : Nat
  extractFails : Bool
  extracted : List Str
  renameFails : Bool
deriving DecidableEq

/-- The observable outcome of `Install::apply`: the returned result and the
directory handed to the external `build_package` step, when it was
invoked. -/
structure InstallOutcome where
  result : Except InstallError Unit
  builtDir : Option FsPath
deriving DecidableEq

/-- `src/commands/install.rs`: `Install::apply` after the download request:
a 404 response is `VersionNotFound`; the archive is extracted into a fresh
temp directory under `versions/.downloads`; the *first* entry of that
directory (`read_dir(...).next()`) becomes the build directory, a missing
first entry is `TarIsEmpty`; `build_package` is invoked on it; finally it
is renamed to `versions_dir/version`. -/
def installApply (version : Str) (config : FarmConfig) (tmpName : Str)
    (env : InstallEnv) : InstallOutcome :=
  if env.status = 404 then ⟨.error (.versionNotFound version), none⟩
  else
    let installations_dir := versions_dir config.base
    let temp_dir := installations_dir ++ [('.' :: ('d' :: ('o' :: ('w' :: ('n' :: ('l' :: ('o' :: ('a' :: ('d' :: ('s' :: [])))))))))), tmpName]
    if env.extractFails then ⟨.error .extractError, none⟩
    else
      match env.extracted with
      | [] => ⟨.error .tarIsEmpty, none⟩
      | e :: _ =>
        let installed_directory := temp_dir ++ [e]
        if env.renameFails then ⟨.error .ioError, some installed_directory⟩
        else ⟨.ok (), some installed_directory⟩

/-! ## Basic character and numeral lemmas -/

theorem Char.toNat_injective {a b : Char} (h : a.toNat = b.toNat) : a = b :=
  Char.ext (UInt32.ext h)

theorem char_ofNat_toNat {n : Nat} (h : n < 55296) : (Char.ofNat n).toNat = n := by
  unfold Char.ofNat
  rw [dif_pos (Or.inl h)]
  simp [Char.ofNatAux, Char.toNat, UInt32.toNat]

theorem digitCh_toNat {d : Nat} (h : d < 10) : (digitCh d).toNat = 48 + d := by
  unfold digitCh
  exact char_ofNat_toNat (by omega)

theorem isDigitCh_digitCh {d : Nat} (h : d < 10) : isDigitCh (digitCh d) = true := by
  simp [isDigitCh, digitCh_toNat h]
  omega

theorem digitCh_ne_zeroCh {d : Nat} (hd : d < 10) (h : d ≠ 0) : digitCh d ≠ '0' := by
  intro he
  have := digitCh_toNat hd
  rw [he] at this
  have : (48 : Nat) = 48 + d := this
  omega

theorem digitCh_of_isDigit {c : Char} (h : isDigitCh c = true) : digitCh (c.toNat - 48) = c := by
  have hc : 48 ≤ c.toNat ∧ c.toNat ≤ 57 := by simpa [isDigitCh] using h
  apply Char.toNat_injective
  rw [digitCh_toNat (by omega)]
  omega

theorem natCharsAux_fuel_irrel : ∀ fuel fuel' n, n ≤ fuel → n ≤ fuel' →
    natCharsAux fuel n = natCharsAux fuel' n := by
  intro fuel
  induction fuel with
  | zero =>
    intro fuel' n h _
    interval_cases n
    cases fuel' <;> rfl
  | succ f ih =>
    intro fuel' n h h'
    match n, fuel' with
    | 0, 0 => rfl
    | 0, _ + 1 => rfl
    | n + 1, f' + 1 =>
      show natCharsAux f ((n+1)/10) ++ _ = natCharsAux f' ((n+1)/10) ++ _
      have hd : (n + 1) / 10 < n + 1 := Nat.div_lt_self (Nat.succ_pos n) (by omega)
      rw [ih f' ((n+1)/10) (by omega) (by omega)]

theorem digitsVal_append (s : Str) (c : Char) :
    digitsVal (s ++ [c]) = digitsVal s * 10 + (c.toNat - 48) := by
  simp [digitsVal, List.foldl_append]

theorem digitsVal_natCharsAux : ∀ fuel n, n ≤ fuel → digitsVal (natCharsAux fuel n) = n := by
  intro fuel
  induction fuel with
  | zero =>
    intro n h
    interval_cases n
    rfl
  | succ f ih =>
    intro n h
    match n with
    | 0 => rfl
    | n + 1 =>
      show digitsVal (natCharsAux f ((n+1)/10) ++ [digitCh ((n+1) % 10)]) = n + 1
      have hd : (n + 1) / 10 < n + 1 := Nat.div_lt_self (Nat.succ_pos n) (by omega)
      rw [digitsVal_append, ih ((n+1)/10) (by omega),
        digitCh_toNat (Nat.mod_lt _ (by omega))]
      omega

theorem natCharsAux_all_digits : ∀ fuel n, (natCharsAux fuel n).all isDigitCh = true := by
  intro fuel
  induction fuel with
  | zero => intro n; rfl
  | succ f ih =>
    intro n
    match n with
    | 0 => rfl
    | n + 1 =>
      show ((natCharsAux f ((n+1)/10) ++ [digitCh ((n+1) % 10)]).all isDigitCh) = true
      rw [List.all_append]
      simp [ih, isDigitCh_digitCh (Nat.mod_lt _ (by omega : (0:Nat) < 10))]

theorem natCharsAux_zero : ∀ fuel, natCharsAux fuel 0 = [] := by
  intro fuel
  cases fuel <;> rfl

theorem natCharsAux_ne_nil : ∀ fuel n, 0 < n → n ≤ fuel → natCharsAux fuel n ≠ [] := by
  intro fuel n h hf
  cases fuel with
  | zero => omega
  | succ f =>
    cases n with
    | zero => omega
    | succ n =>
      show natCharsAux f ((n+1)/10) ++ [digitCh ((n+1) % 10)] ≠ []
      simp

theorem natCharsAux_head : ∀ fuel n, 0 < n → n ≤ fuel →
    ∃ c rest, natCharsAux fuel n = c :: rest ∧ c ≠ '0' := by
  intro fuel
  induction fuel with
  | zero => intro n h hf; omega
  | succ f ih =>
    intro n h hf
    cases n with
    | zero => omega
    | succ n =>
      show ∃ c rest, natCharsAux f ((n+1)/10) ++ [digitCh ((n+1) % 10)] = c :: rest ∧ c ≠ '0'
      by_cases hq : (n + 1) / 10 = 0
      · have hlt : n + 1 < 10 := by omega
        have hm : (n + 1) % 10 = n + 1 := Nat.mod_eq_of_lt hlt
        rw [hq, natCharsAux_zero]
        refine ⟨digitCh ((n+1) % 10), [], rfl, ?_⟩
        rw [hm]
        exact digitCh_ne_zeroCh hlt (by omega)
      · have hd : (n + 1) / 10 < n + 1 := Nat.div_lt_self (Nat.succ_pos n) (by omega)
        obtain ⟨c, rest, he, hc⟩ := ih ((n+1)/10) (by omega) (by omega)
        exact ⟨c, rest ++ [digitCh ((n+1) % 10)], by rw [he]; rfl, hc⟩

theorem natChars_all_digits (n : Nat) : (natChars n).all isDigitCh = true := by
  unfold natChars
  split
  · decide
  · exact natCharsAux_all_digits n n

theorem natChars_ne_nil (n : Nat) : natChars n ≠ [] := by
  unfold natChars
  split
  · simp
  · exact natCharsAux_ne_nil n n (by omega) le_rfl

theorem natChars_noLeadZero (n : Nat) :
    natChars n = ['0'] ∨ (natChars n).head? ≠ some '0' := by
  unfold natChars
  split
  · exact Or.inl rfl
  · right
    obtain ⟨c, rest, he, hc⟩ := natCharsAux_head n n (by omega) le_rfl
    rw [he]
    simpa using hc

theorem digitsVal_natChars (n : Nat) : digitsVal (natChars n) = n := by
  unfold natChars
  split
  · simp_all [digitsVal]
  · exact digitsVal_natCharsAux n n le_rfl

theorem parseNumeral_natChars (n : Nat) : parseNumeral (natChars n) = some n := by
  unfold parseNumeral
  rw [if_pos ⟨natChars_ne_nil n, natChars_all_digits n, natChars_noLeadZero n⟩,
    digitsVal_natChars]

theorem digitsVal_foldl_ge (t : Str) :
    ∀ acc, acc ≤ t.foldl (fun a c => a * 10 + (c.toNat - 48)) acc := by
  induction t with
  | nil => intro acc; simp
  | cons c t ih =>
    intro acc
    calc acc ≤ acc * 10 + (c.toNat - 48) := by omega
    _ ≤ _ := ih _

theorem digitsVal_pos {c : Char} {t : Str} (hd : isDigitCh c = true) (hc : c ≠ '0') :
    0 < digitsVal (c :: t) := by
  have h48 : 48 ≤ c.toNat ∧ c.toNat ≤ 57 := by simpa [isDigitCh] using hd
  have hne : c.toNat ≠ 48 := by
    intro he
    exact hc (by rw [← digitCh_of_isDigit hd, he]; rfl)
  calc 0 < c.toNat - 48 := by omega
  _ = 0 * 10 + (c.toNat - 48) := by omega
  _ ≤ digitsVal (c :: t) := by
    show _ ≤ (c :: t).foldl (fun a c => a * 10 + (c.toNat - 48)) 0
    rw [List.foldl_cons]
    exact digitsVal_foldl_ge t _

theorem natChars_complete : ∀ ds : Str, ds ≠ [] → ds.all isDigitCh = true →
    (ds = ['0'] ∨ ds.head? ≠ some '0') → natChars (digitsVal ds) = ds := by
  intro ds
  induction ds using List.reverseRecOn with
  | nil => intro h; exact absurd rfl h
  | append_singleton s c ih =>
    intro _ hdig hlead
    rw [List.all_append] at hdig
    have hdigs : s.all isDigitCh = true := ((Bool.and_eq_true _ _).mp hdig).1
    have hdigc : isDigitCh c = true := by
      have := ((Bool.and_eq_true _ _).mp hdig).2
      simpa using this
    have h48 : 48 ≤ c.toNat ∧ c.toNat ≤ 57 := by simpa [isDigitCh] using hdigc
    cases List.eq_nil_or_concat s with
    | inl hs =>
      subst hs
      rw [digitsVal_append]
      simp only [List.nil_append]
      simp only [digitsVal, List.foldl_nil, Nat.zero_mul, Nat.zero_add]
      by_cases hz : c.toNat - 48 = 0
      · have hc0 : c = '0' := by
          rw [← digitCh_of_isDigit hdigc, hz]; rfl
        subst hc0
        rw [hz]
        rfl
      · unfold natChars
        rw [if_neg hz]
        have hlt : c.toNat - 48 < 10 := by omega
        obtain ⟨m, hm⟩ : ∃ m, c.toNat - 48 = m + 1 := ⟨c.toNat - 49, by omega⟩
        rw [hm]
        show natCharsAux m ((m+1)/10) ++ [digitCh ((m+1) % 10)] = [c]
        rw [Nat.div_eq_of_lt (by omega), Nat.mod_eq_of_lt (by omega), natCharsAux_zero]
        show [digitCh (m+1)] = [c]
        rw [show m + 1 = c.toNat - 48 by omega, digitCh_of_isDigit hdigc]
    | inr hex =>
      have hsne : s ≠ [] := by
        obtain ⟨l, b, rfl⟩ := hex
        simp
      obtain ⟨c0, t, rfl⟩ := List.exists_cons_of_ne_nil hsne
      have hlead' : c0 ≠ '0' := by
        cases hlead with
        | inl h1 =>
          exfalso
          have hlen := congrArg List.length h1
          simp at hlen
        | inr h2 =>
          intro hc0
          subst hc0
          simp at h2
      have hdigc0 : isDigitCh c0 = true := by
        have := hdigs
        simp [List.all_cons] at this
        exact this.1
      have hpos : 0 < digitsVal (c0 :: t) := digitsVal_pos hdigc0 hlead'
      have ihs : natChars (digitsVal (c0 :: t)) = c0 :: t :=
        ih hsne hdigs (Or.inr (by simpa using hlead'))
      rw [digitsVal_append]
      set a := digitsVal (c0 :: t) with ha
      have hd10 : c.toNat - 48 < 10 := by omega
      have hn0 : a * 10 + (c.toNat - 48) ≠ 0 := by omega
      unfold natChars
      rw [if_neg hn0]
      obtain ⟨m, hm⟩ : ∃ m, a * 10 + (c.toNat - 48) = m + 1 :=
        ⟨a * 10 + (c.toNat - 48) - 1, by omega⟩
      rw [hm]
      show natCharsAux m ((m+1)/10) ++ [digitCh ((m+1) % 10)] = (c0 :: t) ++ [c]
      have hdiv : (m + 1) / 10 = a := by omega
      have hmod : (m + 1) % 10 = c.toNat - 48 := by omega
      rw [hdiv, hmod, digitCh_of_isDigit hdigc]
      congr 1
      have h1 : a ≤ m := by omega
      rw [natCharsAux_fuel_irrel m a a h1 le_rfl]
      have hfin : natChars a = c0 :: t := ihs
      unfold natChars at hfin
      rwa [if_neg (by omega)] at hfin

theorem parseNumeral_complete {s : Str} {n : Nat} (h : parseNumeral s = some n) :
    natChars n = s := by
  unfold parseNumeral at h
  split at h
  · rename_i hcond
    obtain ⟨h1, h2, h3⟩ := hcond
    cases Option.some.inj h
    exact natChars_complete s h1 h2 h3
  · exact absurd h (by simp)

/-! ## Split and join lemmas -/

theorem splitFirst_not_mem {c : Char} : ∀ {s : Str}, c ∉ s → splitFirst c s = (s, none) := by
  intro s
  induction s with
  | nil => intro _; rfl
  | cons x xs ih =>
    intro h
    have hx : ¬ x = c := fun he => h (by rw [he]; exact List.mem_cons_self _ _)
    have hxs : c ∉ xs := fun hm => h (List.mem_cons_of_mem _ hm)
    show splitFirst c (x :: xs) = (x :: xs, none)
    unfold splitFirst
    rw [if_neg hx, ih hxs]

theorem splitFirst_append {c : Char} : ∀ {a : Str} (b : Str), c ∉ a →
    splitFirst c (a ++ c :: b) = (a, some b) := by
  intro a
  induction a with
  | nil =>
    intro b _
    show splitFirst c (c :: b) = ([], some b)
    unfold splitFirst
    rw [if_pos rfl]
  | cons x xs ih =>
    intro b h
    have hx : ¬ x = c := fun he => h (by rw [he]; exact List.mem_cons_self _ _)
    have hxs : c ∉ xs := fun hm => h (List.mem_cons_of_mem _ hm)
    show splitFirst c (x :: (xs ++ c :: b)) = (x :: xs, some b)
    unfold splitFirst
    rw [if_neg hx, ih b hxs]

theorem splitFirst_recon_none {c : Char} : ∀ {s a : Str},
    splitFirst c s = (a, none) → s = a ∧ c ∉ a := by
  intro s
  induction s with
  | nil =>
    intro a h
    cases h
    exact ⟨rfl, by simp⟩
  | cons x xs ih =>
    intro a h
    unfold splitFirst at h
    by_cases hx : x = c
    · rw [if_pos hx] at h
      cases h
    · rw [if_neg hx] at h
      have h1 : x :: (splitFirst c xs).1 = a := congrArg Prod.fst h
      have h2 : (splitFirst c xs).2 = none := congrArg Prod.snd h
      obtain ⟨he, hnm⟩ := ih (Prod.ext rfl h2)
      refine ⟨?_, ?_⟩
      · rw [← h1]
        exact congrArg (List.cons x) he
      · rw [← h1]
        intro hmem
        rcases List.mem_cons.mp hmem with h' | h'
        · exact hx h'.symm
        · exact hnm h'

theorem splitFirst_recon_some {c : Char} : ∀ {s a b : Str},
    splitFirst c s = (a, some b) → s = a ++ c :: b ∧ c ∉ a := by
  intro s
  induction s with
  | nil => intro a b h; cases h
  | cons x xs ih =>
    intro a b h
    unfold splitFirst at h
    by_cases hx : x = c
    · rw [if_pos hx] at h
      cases h
      subst hx
      exact ⟨rfl, by simp⟩
    · rw [if_neg hx] at h
      have h1 : x :: (splitFirst c xs).1 = a := congrArg Prod.fst h
      have h2 : (splitFirst c xs).2 = some b := congrArg Prod.snd h
      obtain ⟨he, hnm⟩ := ih (Prod.ext rfl h2)
      constructor
      · rw [← h1, List.cons_append, ← he]
      · rw [← h1]
        intro hmem
        rcases List.mem_cons.mp hmem with h' | h'
        · exact hx h'.symm
        · exact hnm h'

theorem splitAll_ne_nil (c : Char) : ∀ s : Str, splitAll c s ≠ [] := by
  intro s
  induction s with
  | nil => simp [splitAll]
  | cons x xs ih =>
    unfold splitAll
    by_cases hx : x = c
    · rw [if_pos hx]; simp
    · rw [if_neg hx]
      match h : splitAll c xs with
      | [] => simp
      | p :: ps => simp

theorem joinSep_cons_cons (c : Char) (x : Char) (p : Str) (ps : List Str) :
    joinSep c ((x :: p) :: ps) = x :: joinSep c (p :: ps) := by
  cases ps <;> rfl

theorem joinSep_splitAll (c : Char) : ∀ s : Str, joinSep c (splitAll c s) = s := by
  intro s
  induction s with
  | nil => rfl
  | cons x xs ih =>
    unfold splitAll
    by_cases hx : x = c
    · rw [if_pos hx]
      match h : splitAll c xs, (splitAll_ne_nil c xs) with
      | p :: ps, _ =>
        show joinSep c ([] :: p :: ps) = x :: xs
        show [] ++ c :: joinSep c (p :: ps) = x :: xs
        rw [← h, List.nil_append, ih, hx]
    · rw [if_neg hx]
      match h : splitAll c xs, (splitAll_ne_nil c xs) with
      | p :: ps, _ =>
        show joinSep c ((x :: p) :: ps) = x :: xs
        rw [joinSep_cons_cons, ← h, ih]

theorem splitAll_single {c : Char} : ∀ {p : Str}, c ∉ p → splitAll c p = [p] := by
  intro p
  induction p with
  | nil => intro _; rfl
  | cons x xs ih =>
    intro h
    have hx : ¬ x = c := fun he => h (by rw [he]; exact List.mem_cons_self _ _)
    have hxs : c ∉ xs := fun hm => h (List.mem_cons_of_mem _ hm)
    unfold splitAll
    rw [if_neg hx, ih hxs]

theorem splitAll_append_sep {c : Char} : ∀ {p : Str} (rest : Str), c ∉ p →
    splitAll c (p ++ c :: rest) = p :: splitAll c rest := by
  intro p
  induction p with
  | nil =>
    intro rest _
    show splitAll c (c :: rest) = [] :: splitAll c rest
    conv_lhs => unfold splitAll
    rw [if_pos rfl]
  | cons x xs ih =>
    intro rest h
    have hx : ¬ x = c := fun he => h (by rw [he]; exact List.mem_cons_self _ _)
    have hxs : c ∉ xs := fun hm => h (List.mem_cons_of_mem _ hm)
    show splitAll c (x :: (xs ++ c :: rest)) = (x :: xs) :: splitAll c rest
    conv_lhs => unfold splitAll
    rw [if_neg hx, ih rest hxs]

theorem splitAll_joinSep {c : Char} : ∀ {ps : List Str}, ps ≠ [] →
    (∀ p ∈ ps, c ∉ p) → splitAll c (joinSep c ps) = ps := by
  intro ps
  induction ps with
  | nil => intro h; exact absurd rfl h
  | cons p ps ih =>
    intro _ hmem
    cases ps with
    | nil =>
      show splitAll c p = [p]
      exact splitAll_single (hmem p (List.mem_cons_self _ _))
    | cons q qs =>
      show splitAll c (p ++ c :: joinSep c (q :: qs)) = p :: q :: qs
      rw [splitAll_append_sep _ (hmem p (List.mem_cons_self _ _)),
        ih (by simp) (fun r hr => hmem r (List.mem_cons_of_mem _ hr))]

/-! ## Character classes, trimming and lowercasing -/

theorem not_mem_of_all {p : Char → Bool} : ∀ {s : Str}, s.all p = true →
    ∀ {c : Char}, p c = false → c ∉ s := by
  intro s hall c hc hmem
  rw [List.all_eq_true] at hall
  rw [hall c hmem] at hc
  cases hc

theorem dropWhile_all_false {p : Char → Bool} {l : Str}
    (h : ∀ c ∈ l, p c = false) : l.dropWhile p = l := by
  cases l with
  | nil => rfl
  | cons x xs =>
    rw [List.dropWhile_cons, if_neg]
    rw [h x (List.mem_cons_self _ _)]
    simp

theorem trimStr_eq_self {s : Str} (h : ∀ c ∈ s, isWsCh c = false) : trimStr s = s := by
  unfold trimStr
  rw [dropWhile_all_false h, dropWhile_all_false (by intro c hc; exact h c (List.mem_reverse.mp hc)),
    List.reverse_reverse]

theorem mem_dropWhile {p : Char → Bool} {l : Str} {x : Char}
    (h : x ∈ l.dropWhile p) : x ∈ l :=
  (List.dropWhile_sublist p).mem h

theorem mem_trimStr {s : Str} {x : Char} (h : x ∈ trimStr s) : x ∈ s := by
  unfold trimStr at h
  rw [List.mem_reverse] at h
  have := mem_dropWhile h
  rw [List.mem_reverse] at this
  exact mem_dropWhile this

theorem identCh_of_digit {c : Char} (h : isDigitCh c = true) : identCh c = true := by
  simp [identCh, h]

theorem natChars_all_identCh (n : Nat) : (natChars n).all identCh = true := by
  rw [List.all_eq_true]
  intro x hx
  have := (List.all_eq_true).mp (natChars_all_digits n) x hx
  exact identCh_of_digit this

theorem lowerCh_eq_self {c : Char} (h : ¬ (65 ≤ c.toNat ∧ c.toNat ≤ 90)) : lowerCh c = c := by
  unfold lowerCh
  rw [if_neg h]

theorem lowerCh_toNat_upper {c : Char} (h : 65 ≤ c.toNat ∧ c.toNat ≤ 90) :
    (lowerCh c).toNat = c.toNat + 32 := by
  unfold lowerCh
  rw [if_pos h]
  exact char_ofNat_toNat (by omega)

theorem lowerCh_idem (c : Char) : lowerCh (lowerCh c) = lowerCh c := by
  by_cases h : 65 ≤ c.toNat ∧ c.toNat ≤ 90
  · apply lowerCh_eq_self
    rw [lowerCh_toNat_upper h]
    omega
  · rw [lowerCh_eq_self h, lowerCh_eq_self h]

theorem lowerStr_idem (s : Str) : lowerStr (lowerStr s) = lowerStr s := by
  unfold lowerStr
  rw [List.map_map]
  exact List.map_congr_left (fun c _ => lowerCh_idem c)

theorem lowerCh_of_digit {c : Char} (h : isDigitCh c = true) : lowerCh c = c := by
  apply lowerCh_eq_self
  have : 48 ≤ c.toNat ∧ c.toNat ≤ 57 := by simpa [isDigitCh] using h
  omega

/-! ## Identifier round trips -/

theorem parseIdent_renderIdent : ∀ {i : SvIdent}, wfIdent i = true →
    parseIdent (renderIdent i) = some i := by
  intro i h
  cases i with
  | num n =>
    show parseIdent (natChars n) = some (.num n)
    unfold parseIdent
    rw [if_neg]
    · unfold classifyIdent
      rw [if_pos ⟨natChars_all_digits n, natChars_noLeadZero n⟩, digitsVal_natChars]
    · push_neg
      exact ⟨natChars_ne_nil n, by simp [natChars_all_identCh n]⟩
  | alphanum s =>
    have hw : s ≠ [] ∧ s.all identCh = true ∧
        ¬ (s.all isDigitCh = true ∧ (s = ['0'] ∨ s.head? ≠ some '0')) :=
      of_decide_eq_true h
    show parseIdent s = some (.alphanum s)
    unfold parseIdent
    rw [if_neg (by push_neg; exact ⟨hw.1, by simp [hw.2.1]⟩)]
    unfold classifyIdent
    rw [if_neg hw.2.2]

theorem parseIdent_complete : ∀ {s : Str} {i : SvIdent}, parseIdent s = some i →
    renderIdent i = s ∧ wfIdent i = true := by
  intro s i h
  unfold parseIdent at h
  split at h
  · cases h
  · rename_i hcond
    push_neg at hcond
    cases Option.some.inj h
    unfold classifyIdent
    split
    · rename_i hnum
      constructor
      · show natChars (digitsVal s) = s
        exact natChars_complete s hcond.1 hnum.1 hnum.2
      · rfl
    · rename_i hnnum
      exact ⟨rfl, decide_eq_true ⟨hcond.1, hcond.2, hnnum⟩⟩

theorem renderIdent_no_dot {i : SvIdent} (h : wfIdent i = true) : '.' ∉ renderIdent i := by
  cases i with
  | num n => exact not_mem_of_all (natChars_all_identCh n) (by decide)
  | alphanum s =>
    have hw : s ≠ [] ∧ s.all identCh = true ∧
        ¬ (s.all isDigitCh = true ∧ (s = ['0'] ∨ s.head? ≠ some '0')) :=
      of_decide_eq_true h
    exact not_mem_of_all hw.2.1 (by decide)

theorem mapM_parseIdent_render : ∀ {l : List SvIdent}, l.all wfIdent = true →
    (l.map renderIdent).mapM parseIdent = some l := by
  intro l
  induction l with
  | nil => intro _; rfl
  | cons i rest ih =>
    intro h
    rw [List.all_cons, Bool.and_eq_true] at h
    rw [List.map_cons, List.mapM_cons, parseIdent_renderIdent h.1, ih h.2]
    rfl

theorem parseIdents_render {l : List SvIdent} (hwf : l.all wfIdent = true) (hne : l ≠ []) :
    parseIdents (joinSep '.' (l.map renderIdent)) = some l := by
  unfold parseIdents
  rw [splitAll_joinSep (by simpa using hne) ?_, mapM_parseIdent_render hwf]
  intro p hp
  rw [List.mem_map] at hp
  obtain ⟨i, hi, rfl⟩ := hp
  exact renderIdent_no_dot (List.all_eq_true.mp hwf i hi)

theorem mapM_parseIdent_complete : ∀ {ps : List Str} {l : List SvIdent},
    ps.mapM parseIdent = some l →
    ps = l.map renderIdent ∧ l.all wfIdent = true ∧ (ps = [] ↔ l = []) := by
  intro ps
  induction ps with
  | nil =>
    intro l h
    rw [List.mapM_nil] at h
    cases h
    exact ⟨rfl, rfl, by simp⟩
  | cons p ps ih =>
    intro l h
    rw [List.mapM_cons] at h
    cases hp : parseIdent p with
    | none => rw [hp] at h; simp at h
    | some i =>
      rw [hp] at h
      cases hrest : ps.mapM parseIdent with
      | none => rw [hrest] at h; simp at h
      | some rest =>
        rw [hrest] at h
        simp at h
        obtain ⟨hrender, hwfi⟩ := parseIdent_complete hp
        obtain ⟨hmap, hwf, _⟩ := ih hrest
        subst h
        refine ⟨?_, ?_, by simp⟩
        · rw [List.map_cons, hrender, ← hmap]
        · rw [List.all_cons, Bool.and_eq_true]
          exact ⟨hwfi, hwf⟩

theorem parseIdents_complete {s : Str} {l : List SvIdent} (h : parseIdents s = some l) :
    joinSep '.' (l.map renderIdent) = s ∧ l ≠ [] ∧ l.all wfIdent = true := by
  unfold parseIdents at h
  obtain ⟨hmap, hwf, hiff⟩ := mapM_parseIdent_complete h
  refine ⟨?_, ?_, hwf⟩
  · rw [← hmap, joinSep_splitAll]
  · intro hl
    exact splitAll_ne_nil '.' s (hiff.mpr hl)

theorem mem_joinSep {sep : Char} : ∀ {ps : List Str} {c : Char}, c ∈ joinSep sep ps →
    c = sep ∨ ∃ p ∈ ps, c ∈ p := by
  intro ps
  induction ps with
  | nil => intro c h; cases h
  | cons p ps ih =>
    intro c h
    cases ps with
    | nil =>
      right
      exact ⟨p, List.mem_cons_self _ _, h⟩
    | cons q qs =>
      rw [show joinSep sep (p :: q :: qs) = p ++ sep :: joinSep sep (q :: qs) from rfl,
        List.mem_append] at h
      rcases h with h | h
      · exact Or.inr ⟨p, List.mem_cons_self _ _, h⟩
      · rcases List.mem_cons.mp h with h | h
        · exact Or.inl h
        · rcases ih h with h | ⟨r, hr, hcr⟩
          · exact Or.inl h
          · exact Or.inr ⟨r, List.mem_cons_of_mem _ hr, hcr⟩

/-! ## Rendering structure lemmas -/

/-- The `major.minor.patch` part of a rendering. -/
def tripleStr (v : SemVer) : Str :=
  natChars v.major ++ '.' :: (natChars v.minor ++ '.' :: natChars v.patch)

/-- The `-pre` part of a rendering. -/
def preStr (v : SemVer) : Str :=
  if v.pre = [] then [] else '-' :: joinSep '.' (v.pre.map renderIdent)

/-- The `+build` part of a rendering. -/
def buildStr (v : SemVer) : Str :=
  if v.build = [] then [] else '+' :: joinSep '.' (v.build.map renderIdent)

theorem semverRender_eq (v : SemVer) :
    semverRender v = (tripleStr v ++ preStr v) ++ buildStr v := by
  simp [semverRender, tripleStr, preStr, buildStr, List.append_assoc]

theorem renderIdent_all_identCh {i : SvIdent} (h : wfIdent i = true) :
    (renderIdent i).all identCh = true := by
  cases i with
  | num n => exact natChars_all_identCh n
  | alphanum s =>
    have hw : s ≠ [] ∧ s.all identCh = true ∧
        ¬ (s.all isDigitCh = true ∧ (s = ['0'] ∨ s.head? ≠ some '0')) :=
      of_decide_eq_true h
    exact hw.2.1

theorem tripleStr_chars {v : SemVer} {c : Char} (hc : c ∈ tripleStr v) :
    isDigitCh c = true ∨ c = '.' := by
  unfold tripleStr at hc
  rw [List.mem_append] at hc
  rcases hc with hc | hc
  · exact Or.inl (List.all_eq_true.mp (natChars_all_digits _) c hc)
  · rcases List.mem_cons.mp hc with hc | hc
    · exact Or.inr hc
    · rw [List.mem_append] at hc
      rcases hc with hc | hc
      · exact Or.inl (List.all_eq_true.mp (natChars_all_digits _) c hc)
      · rcases List.mem_cons.mp hc with hc | hc
        · exact Or.inr hc
        · exact Or.inl (List.all_eq_true.mp (natChars_all_digits _) c hc)

theorem joinSep_idents_chars {l : List SvIdent} (h : l.all wfIdent = true) {c : Char}
    (hc : c ∈ joinSep '.' (l.map renderIdent)) : identCh c = true ∨ c = '.' := by
  rcases mem_joinSep hc with hc | ⟨p, hp, hcp⟩
  · exact Or.inr hc
  · rw [List.mem_map] at hp
    obtain ⟨i, hi, rfl⟩ := hp
    exact Or.inl (List.all_eq_true.mp
      (renderIdent_all_identCh (List.all_eq_true.mp h i hi)) c hcp)

theorem preStr_chars {v : SemVer} (h : v.pre.all wfIdent = true) {c : Char}
    (hc : c ∈ preStr v) : identCh c = true ∨ c = '.' := by
  unfold preStr at hc
  split at hc
  · cases hc
  · rcases List.mem_cons.mp hc with hc | hc
    · subst hc
      exact Or.inl (by decide)
    · exact joinSep_idents_chars h hc

theorem buildStr_chars {v : SemVer} (h : v.build.all wfIdent = true) {c : Char}
    (hc : c ∈ buildStr v) : identCh c = true ∨ c = '.' ∨ c = '+' := by
  unfold buildStr at hc
  split at hc
  · cases hc
  · rcases List.mem_cons.mp hc with hc | hc
    · exact Or.inr (Or.inr hc)
    · rcases joinSep_idents_chars h hc with h' | h'
      · exact Or.inl h'
      · exact Or.inr (Or.inl h')

theorem identCh_not_ws {c : Char} (h : identCh c = true) : isWsCh c = false := by
  have hv : (48 ≤ c.toNat ∧ c.toNat ≤ 57) ∨ (65 ≤ c.toNat ∧ c.toNat ≤ 90) ∨
      (97 ≤ c.toNat ∧ c.toNat ≤ 122) ∨ c.toNat = 45 := by
    have := of_decide_eq_true (show decide _ = true from h)
    simpa [isDigitCh] using this
  have : ¬ (c.toNat = 32 ∨ c.toNat = 9 ∨ c.toNat = 10 ∨ c.toNat = 13) := by omega
  simpa [isWsCh] using this

theorem semverRender_not_ws {v : SemVer} (h : svWf v = true) :
    ∀ c ∈ semverRender v, isWsCh c = false := by
  obtain ⟨hp, hb⟩ : v.pre.all wfIdent = true ∧ v.build.all wfIdent = true :=
    of_decide_eq_true h
  intro c hc
  rw [semverRender_eq, List.mem_append, List.mem_append] at hc
  rcases hc with (hc | hc) | hc
  · rcases tripleStr_chars hc with h' | h'
    · exact identCh_not_ws (identCh_of_digit h')
    · subst h'; decide
  · rcases preStr_chars hp hc with h' | h'
    · exact identCh_not_ws h'
    · subst h'; decide
  · rcases buildStr_chars hb hc with h' | h' | h'
    · exact identCh_not_ws h'
    · subst h'; decide
    · subst h'; decide

theorem dot_not_mem_natChars (n : Nat) : '.' ∉ natChars n :=
  not_mem_of_all (natChars_all_digits n) (by decide)

theorem dash_not_mem_tripleStr (v : SemVer) : '-' ∉ tripleStr v := by
  intro hc
  rcases tripleStr_chars hc with h | h
  · simp [isDigitCh] at h
  · cases h

theorem plus_not_mem_core {v : SemVer} (hp : v.pre.all wfIdent = true) :
    '+' ∉ tripleStr v ++ preStr v := by
  intro hc
  rw [List.mem_append] at hc
  rcases hc with hc | hc
  · rcases tripleStr_chars hc with h | h
    · simp [isDigitCh] at h
    · cases h
  · rcases preStr_chars hp hc with h | h
    · simp [identCh, isDigitCh] at h
    · cases h

theorem parseTriple_tripleStr (v : SemVer) :
    parseTriple (tripleStr v) = some (v.major, v.minor, v.patch) := by
  unfold parseTriple tripleStr
  rw [splitAll_append_sep _ (dot_not_mem_natChars _),
    splitAll_append_sep _ (dot_not_mem_natChars _),
    splitAll_single (dot_not_mem_natChars _)]
  simp [parseNumeral_natChars]

theorem splitFirst_plus_render {v : SemVer} (h : svWf v = true) :
    splitFirst '+' (semverRender v) =
      (tripleStr v ++ preStr v,
        if v.build = [] then none else some (joinSep '.' (v.build.map renderIdent))) := by
  obtain ⟨hp, hb⟩ : v.pre.all wfIdent = true ∧ v.build.all wfIdent = true :=
    of_decide_eq_true h
  rw [semverRender_eq]
  by_cases hbe : v.build = []
  · rw [if_pos hbe]
    unfold buildStr
    rw [if_pos hbe, List.append_nil]
    exact splitFirst_not_mem (plus_not_mem_core hp)
  · rw [if_neg hbe]
    unfold buildStr
    rw [if_neg hbe]
    exact splitFirst_append _ (plus_not_mem_core hp)

theorem splitFirst_dash_core (v : SemVer) :
    splitFirst '-' (tripleStr v ++ preStr v) =
      (tripleStr v,
        if v.pre = [] then none else some (joinSep '.' (v.pre.map renderIdent))) := by
  by_cases hpe : v.pre = []
  · rw [if_pos hpe]
    unfold preStr
    rw [if_pos hpe, List.append_nil]
    exact splitFirst_not_mem (dash_not_mem_tripleStr v)
  · rw [if_neg hpe]
    unfold preStr
    rw [if_neg hpe]
    exact splitFirst_append _ (dash_not_mem_tripleStr v)

theorem semverParse_unfold (input : Str) :
    semverParse input =
      match parseTriple (splitFirst '-' (splitFirst '+' (trimStr input)).1).1 with
      | none => none
      | some t =>
        match parseOptIdents (splitFirst '-' (splitFirst '+' (trimStr input)).1).2 with
        | none => none
        | some pre =>
          match parseOptIdents (splitFirst '+' (trimStr input)).2 with
          | none => none
          | some build => some ⟨t.1, t.2.1, t.2.2, pre, build⟩ := rfl

/-- Round trip, render-then-parse: rendering a well-formed semver value and
parsing it back gives the value itself. -/
theorem semverParse_semverRender : ∀ {v : SemVer}, svWf v = true →
    semverParse (semverRender v) = some v := by
  intro v h
  obtain ⟨hp, hb⟩ : v.pre.all wfIdent = true ∧ v.build.all wfIdent = true :=
    of_decide_eq_true h
  have h1 : trimStr (semverRender v) = semverRender v :=
    trimStr_eq_self (semverRender_not_ws h)
  rw [semverParse_unfold, h1]
  obtain ⟨M, m, p, pre, bld⟩ := v
  simp only [splitFirst_plus_render h, splitFirst_dash_core]
  by_cases hpe : pre = [] <;> by_cases hbe : bld = []
  · subst hpe; subst hbe
    simp [parseTriple_tripleStr, parseOptIdents]
  · subst hpe
    simp only [if_pos rfl, if_neg hbe]
    simp [parseTriple_tripleStr, parseOptIdents,
      parseIdents_render hb hbe]
  · subst hbe
    simp only [if_pos rfl, if_neg hpe]
    simp [parseTriple_tripleStr, parseOptIdents,
      parseIdents_render hp hpe]
  · simp only [if_neg hpe, if_neg hbe]
    simp [parseTriple_tripleStr, parseOptIdents,
      parseIdents_render hp hpe, parseIdents_render hb hbe]

theorem parseTriple_complete : ∀ {s : Str} {t : Nat × Nat × Nat}, parseTriple s = some t →
    natChars t.1 ++ '.' :: (natChars t.2.1 ++ '.' :: natChars t.2.2) = s := by
  intro s t h
  unfold parseTriple at h
  split at h
  · rename_i a b c hsplit
    cases hx : parseNumeral a with
    | none => rw [hx] at h; simp at h
    | some x =>
      cases hy : parseNumeral b with
      | none => rw [hx, hy] at h; simp at h
      | some y =>
        cases hz : parseNumeral c with
        | none => rw [hx, hy, hz] at h; simp at h
        | some z =>
          rw [hx, hy, hz] at h
          simp at h
          subst h
          have ha := parseNumeral_complete hx
          have hb := parseNumeral_complete hy
          have hc := parseNumeral_complete hz
          have hjoin : joinSep '.' (splitAll '.' s) = s := joinSep_splitAll '.' s
          rw [hsplit] at hjoin
          rw [show joinSep '.' [a, b, c] = a ++ '.' :: (b ++ '.' :: c) from rfl] at hjoin
          simpa [ha, hb, hc] using hjoin
  · cases h

/-- Round trip, parse-then-render: a successfully parsed string renders back
to its own trimmed form, and the parsed value is well-formed. -/
theorem semverParse_complete : ∀ {s : Str} {v : SemVer}, semverParse s = some v →
    semverRender v = trimStr s ∧ svWf v = true := by
  intro s v h
  rw [semverParse_unfold] at h
  cases hA : parseTriple (splitFirst '-' (splitFirst '+' (trimStr s)).1).1 with
  | none => rw [hA] at h; cases h
  | some t3 =>
    rw [hA] at h
    cases hB : parseOptIdents (splitFirst '-' (splitFirst '+' (trimStr s)).1).2 with
    | none => rw [hB] at h; cases h
    | some pre =>
      rw [hB] at h
      cases hC : parseOptIdents (splitFirst '+' (trimStr s)).2 with
      | none => rw [hC] at h; cases h
      | some bld =>
        rw [hC] at h
        cases h
        -- reconstruct the build split
        have htriple := parseTriple_complete hA
        have hcore :
            (tripleStr ⟨t3.1, t3.2.1, t3.2.2, pre, bld⟩ ++ preStr ⟨t3.1, t3.2.1, t3.2.2, pre, bld⟩
              = (splitFirst '+' (trimStr s)).1)
            ∧ pre.all wfIdent = true := by
          cases hB2 : (splitFirst '-' (splitFirst '+' (trimStr s)).1).2 with
          | none =>
            rw [hB2] at hB
            cases hB
            obtain ⟨hrecon, _⟩ := splitFirst_recon_none (Prod.ext rfl hB2)
            constructor
            · show tripleStr _ ++ preStr _ = _
              unfold preStr
              rw [if_pos rfl, List.append_nil]
              unfold tripleStr
              rw [hrecon]
              exact htriple
            · rfl
          | some pstr =>
            rw [hB2] at hB
            obtain ⟨hjoin, hne, hwf⟩ := parseIdents_complete hB
            obtain ⟨hrecon, _⟩ := splitFirst_recon_some (Prod.ext rfl hB2)
            constructor
            · show tripleStr _ ++ preStr _ = _
              unfold preStr
              rw [if_neg hne]
              unfold tripleStr
              rw [hrecon]
              show _ ++ '-' :: joinSep '.' (pre.map renderIdent) = _
              rw [hjoin, htriple]
            · exact hwf
        cases hC2 : (splitFirst '+' (trimStr s)).2 with
        | none =>
          rw [hC2] at hC
          cases hC
          obtain ⟨hrecon, _⟩ := splitFirst_recon_none (Prod.ext rfl hC2)
          constructor
          · rw [semverRender_eq]
            show _ ++ buildStr _ = _
            unfold buildStr
            rw [if_pos rfl, List.append_nil, hcore.1]
            exact hrecon.symm
          · exact decide_eq_true ⟨hcore.2, rfl⟩
        | some bstr =>
          rw [hC2] at hC
          obtain ⟨hjoin, hne, hwf⟩ := parseIdents_complete hC
          obtain ⟨hrecon, _⟩ := splitFirst_recon_some (Prod.ext rfl hC2)
          constructor
          · rw [semverRender_eq]
            show _ ++ buildStr _ = _
            unfold buildStr
            rw [if_neg hne, hrecon]
            show _ ++ '+' :: joinSep '.' (bld.map renderIdent) = _
            rw [hjoin, hcore.1]
          · exact decide_eq_true ⟨hcore.2, hwf⟩

/-! ## `Version.parse` and `v_str` round trips -/

theorem natChars_head_digit (n : Nat) :
    ∃ c r, natChars n = c :: r ∧ isDigitCh c = true := by
  obtain ⟨c, r, he⟩ := List.exists_cons_of_ne_nil (natChars_ne_nil n)
  refine ⟨c, r, he, ?_⟩
  have := natChars_all_digits n
  rw [he, List.all_cons, Bool.and_eq_true] at this
  exact this.1

theorem semverRender_head (v : SemVer) :
    ∃ c r, semverRender v = c :: r ∧ isDigitCh c = true := by
  obtain ⟨c, r, he, hd⟩ := natChars_head_digit v.major
  rw [semverRender_eq]
  unfold tripleStr
  rw [he]
  exact ⟨c, _, rfl, hd⟩

theorem start_with_number_semverRender (v : SemVer) :
    start_with_number (semverRender v) = true := by
  obtain ⟨c, r, he, hd⟩ := semverRender_head v
  rw [he]
  simpa [start_with_number] using hd

theorem dropV_semverRender (v : SemVer) :
    (semverRender v).dropWhile (fun c => c = 'v') = semverRender v := by
  obtain ⟨c, r, he, hd⟩ := semverRender_head v
  rw [he, List.dropWhile_cons, if_neg]
  intro hc
  rw [of_decide_eq_true hc] at hd
  simp [isDigitCh] at hd

theorem lowerStr_eq_self_of_all {s : Str} (h : ∀ c ∈ s, lowerCh c = c) : lowerStr s = s :=
  List.map_congr_left h |>.trans (List.map_id s)

theorem mem_lowerStr_fixed {s : Str} {c : Char} (h : c ∈ lowerStr s) : lowerCh c = c := by
  unfold lowerStr at h
  rw [List.mem_map] at h
  obtain ⟨c0, _, rfl⟩ := h
  exact lowerCh_idem c0

/-- Parsing the rendered string of a well-formed, already-lowercase semver
value recovers it. -/
theorem versionParse_unfold (s : Str) :
    Version.parse s =
      if start_with_number ((lowerStr s).dropWhile (fun c => c = 'v')) = true then
        Option.map Version.semver (semverParse ((lowerStr s).dropWhile (fun c => c = 'v')))
      else some (Version.alias (lowerStr s)) := rfl

theorem parse_vstr_semver {v : SemVer} (hwf : svWf v = true)
    (hlo : lowerStr (semverRender v) = semverRender v) :
    Version.parse (Version.v_str (.semver v)) = some (.semver v) := by
  show Version.parse ('v' :: semverRender v) = some (.semver v)
  rw [versionParse_unfold]
  have hlow : lowerStr ('v' :: semverRender v) = 'v' :: semverRender v := by
    show lowerCh 'v' :: lowerStr (semverRender v) = _
    rw [hlo]
    rfl
  rw [hlow]
  have hdrop : ('v' :: semverRender v).dropWhile (fun c => c = 'v') = semverRender v := by
    rw [List.dropWhile_cons, if_pos (by decide), dropV_semverRender]
  rw [hdrop, if_pos (start_with_number_semverRender v), semverParse_semverRender hwf]
  rfl

/-- What a successful semver-side parse tells us about the parsed value and
the input: the value is well-formed and lowercase, and it renders to the
trimmed, `v`-stripped, lowercased input. -/
theorem parse_semver_canonical : ∀ {s : Str} {v : SemVer},
    Version.parse s = some (.semver v) →
    svWf v = true ∧ lowerStr (semverRender v) = semverRender v ∧
    semverParse ((lowerStr s).dropWhile (fun c => c = 'v')) = some v ∧
    semverRender v = trimStr ((lowerStr s).dropWhile (fun c => c = 'v')) := by
  intro s v h
  rw [versionParse_unfold] at h
  split at h
  · cases hsp : semverParse ((lowerStr s).dropWhile (fun c => c = 'v')) with
    | none => rw [hsp] at h; cases h
    | some w =>
      rw [hsp] at h
      cases h
      obtain ⟨hrender, hwf⟩ := semverParse_complete hsp
      refine ⟨hwf, ?_, rfl, hrender⟩
      apply lowerStr_eq_self_of_all
      intro c hc
      rw [hrender] at hc
      exact mem_lowerStr_fixed (mem_dropWhile (mem_trimStr hc))
  · cases h

/-! ## Ordering lemmas -/

theorem natCompare_refl (a : Nat) : natCompare a a = .eq := by
  simp [natCompare]

theorem natCompare_eq_iff {a b : Nat} : natCompare a b = .eq ↔ a = b := by
  unfold natCompare
  split
  · constructor
    · intro h; cases h
    · omega
  · split
    · simp_all
    · constructor
      · intro h; cases h
      · omega

theorem natCompare_swap (a b : Nat) : natCompare b a = (natCompare a b).swap := by
  unfold natCompare
  rcases Nat.lt_trichotomy a b with h | h | h
  · rw [if_pos h, if_neg (show ¬ b < a by omega), if_neg (show ¬ b = a by omega)]
    rfl
  · subst h
    rw [if_neg (show ¬ a < a by omega), if_pos rfl]
    rfl
  · rw [if_pos h, if_neg (show ¬ a < b by omega), if_neg (show ¬ a = b by omega)]
    rfl

theorem natCompare_lt_trans {a b c : Nat} (h1 : natCompare a b = .lt)
    (h2 : natCompare b c = .lt) : natCompare a c = .lt := by
  unfold natCompare at h1 h2 ⊢
  split at h1
  · split at h2
    · rw [if_pos (by omega)]
    · split at h2 <;> cases h2
  · split at h1 <;> cases h1

theorem charCompare_refl (a : Char) : charCompare a a = .eq := natCompare_refl _

theorem charCompare_eq {a b : Char} (h : charCompare a b = .eq) : a = b :=
  Char.toNat_injective (natCompare_eq_iff.mp h)

theorem charCompare_swap (a b : Char) : charCompare b a = (charCompare a b).swap :=
  natCompare_swap _ _

theorem charCompare_lt_trans {a b c : Char} (h1 : charCompare a b = .lt)
    (h2 : charCompare b c = .lt) : charCompare a c = .lt :=
  natCompare_lt_trans h1 h2

theorem then_eq_lt {o p : Ordering} : o.then p = .lt ↔ o = .lt ∨ (o = .eq ∧ p = .lt) := by
  cases o <;> simp [Ordering.then]

theorem then_eq_eq {o p : Ordering} : o.then p = .eq ↔ o = .eq ∧ p = .eq := by
  cases o <;> simp [Ordering.then]

theorem then_swap (o p : Ordering) : (o.then p).swap = o.swap.then p.swap := by
  cases o <;> rfl

section LexLemmas

variable {α : Type} {cmp : α → α → Ordering}

theorem lexCompare_refl (hc : ∀ a, cmp a a = .eq) : ∀ l, lexCompare cmp l l = .eq := by
  intro l
  induction l with
  | nil => rfl
  | cons a as ih =>
    show (cmp a a).then (lexCompare cmp as as) = .eq
    rw [hc a, ih]
    rfl

theorem lexCompare_swap (hc : ∀ a b, cmp b a = (cmp a b).swap) :
    ∀ l m, lexCompare cmp m l = (lexCompare cmp l m).swap := by
  intro l
  induction l with
  | nil => intro m; cases m <;> rfl
  | cons a as ih =>
    intro m
    cases m with
    | nil => rfl
    | cons b bs =>
      show (cmp b a).then (lexCompare cmp bs as) = ((cmp a b).then (lexCompare cmp as bs)).swap
      rw [hc a b, ih bs, then_swap]

theorem lexCompare_eq (hc : ∀ a b, cmp a b = .eq → a = b) :
    ∀ l m, lexCompare cmp l m = .eq → l = m := by
  intro l
  induction l with
  | nil => intro m h; cases m with | nil => rfl | cons b bs => cases h
  | cons a as ih =>
    intro m h
    cases m with
    | nil => cases h
    | cons b bs =>
      have h2 := then_eq_eq.mp h
      rw [hc a b h2.1, ih bs h2.2]

theorem lexCompare_lt_trans (hrefl : ∀ a, cmp a a = .eq)
    (heq : ∀ a b, cmp a b = .eq → a = b)
    (htr : ∀ {a b c}, cmp a b = .lt → cmp b c = .lt → cmp a c = .lt) :
    ∀ l m n, lexCompare cmp l m = .lt → lexCompare cmp m n = .lt →
      lexCompare cmp l n = .lt := by
  intro l
  induction l with
  | nil =>
    intro m n h1 h2
    cases m with
    | nil => cases h1
    | cons b bs =>
      cases n with
      | nil => cases h2
      | cons c cs => rfl
  | cons a as ih =>
    intro m n h1 h2
    cases m with
    | nil => cases h1
    | cons b bs =>
      cases n with
      | nil => cases h2
      | cons c cs =>
        show (cmp a c).then (lexCompare cmp as cs) = .lt
        have h1' := then_eq_lt.mp h1
        have h2' := then_eq_lt.mp h2
        rw [then_eq_lt]
        rcases h1' with h1' | ⟨h1e, h1r⟩
        · rcases h2' with h2' | ⟨h2e, h2r⟩
          · exact Or.inl (htr h1' h2')
          · rw [← heq b c h2e]
            exact Or.inl h1'
        · rcases h2' with h2' | ⟨h2e, h2r⟩
          · rw [heq a b h1e]
            exact Or.inl h2'
          · rw [heq a b h1e, ← heq b c h2e]
            exact Or.inr ⟨hrefl b, ih bs cs h1r h2r⟩

end LexLemmas

theorem identCompare_refl (i : SvIdent) : identCompare i i = .eq := by
  cases i with
  | num n => exact natCompare_refl n
  | alphanum s => exact lexCompare_refl charCompare_refl s

theorem identCompare_eq : ∀ {i j : SvIdent}, identCompare i j = .eq → i = j := by
  intro i j h
  cases i <;> cases j <;> try cases h
  · rename_i a b
    rw [natCompare_eq_iff.mp h]
  · rename_i a b
    rw [lexCompare_eq (fun _ _ => charCompare_eq) a b h]

theorem identCompare_swap (i j : SvIdent) : identCompare j i = (identCompare i j).swap := by
  cases i <;> cases j <;> try rfl
  · exact natCompare_swap _ _
  · exact lexCompare_swap charCompare_swap _ _

theorem identCompare_lt_trans : ∀ {i j k : SvIdent}, identCompare i j = .lt →
    identCompare j k = .lt → identCompare i k = .lt := by
  intro i j k h1 h2
  cases i <;> cases j <;> cases k <;> try cases h1
  all_goals try cases h2
  all_goals try rfl
  · exact natCompare_lt_trans h1 h2
  · exact lexCompare_lt_trans charCompare_refl (fun _ _ => charCompare_eq)
      charCompare_lt_trans _ _ _ h1 h2

theorem preCompare_refl (l : List SvIdent) : preCompare l l = .eq := by
  cases l with
  | nil => rfl
  | cons i is => exact lexCompare_refl identCompare_refl _

theorem preCompare_eq : ∀ {a b : List SvIdent}, preCompare a b = .eq → a = b := by
  intro a b h
  cases a with
  | nil => cases b with | nil => rfl | cons j js => cases h
  | cons i is =>
    cases b with
    | nil => cases h
    | cons j js => exact lexCompare_eq (fun _ _ => identCompare_eq) _ _ h

theorem preCompare_swap (a b : List SvIdent) : preCompare b a = (preCompare a b).swap := by
  cases a with
  | nil => cases b with | nil => rfl | cons j js => rfl
  | cons i is =>
    cases b with
    | nil => rfl
    | cons j js => exact lexCompare_swap identCompare_swap _ _

theorem preCompare_lt_trans : ∀ {a b c : List SvIdent}, preCompare a b = .lt →
    preCompare b c = .lt → preCompare a c = .lt := by
  intro a b c h1 h2
  cases a with
  | nil => cases b with | nil => cases h1 | cons j js => cases h1
  | cons i is =>
    cases b with
    | nil => cases c with | nil => cases h2 | cons k ks => cases h2
    | cons j js =>
      cases c with
      | nil => rfl
      | cons k ks =>
        exact lexCompare_lt_trans identCompare_refl (fun _ _ => identCompare_eq)
          identCompare_lt_trans _ _ _ h1 h2

theorem then_lt_trans_step {α : Type} {cmpc : α → α → Ordering} {x y z : α}
    {p q r : Ordering}
    (hrefl : ∀ u, cmpc u u = .eq) (heq : ∀ u v, cmpc u v = .eq → u = v)
    (htr : ∀ {u v w}, cmpc u v = .lt → cmpc v w = .lt → cmpc u w = .lt)
    (hp : p = .lt → q = .lt → r = .lt)
    (h1 : (cmpc x y).then p = .lt) (h2 : (cmpc y z).then q = .lt) :
    (cmpc x z).then r = .lt := by
  rcases then_eq_lt.mp h1 with h1' | ⟨h1e, h1r⟩
  · rcases then_eq_lt.mp h2 with h2' | ⟨h2e, h2r⟩
    · exact then_eq_lt.mpr (Or.inl (htr h1' h2'))
    · rw [← heq _ _ h2e]
      exact then_eq_lt.mpr (Or.inl h1')
  · rw [heq _ _ h1e]
    rcases then_eq_lt.mp h2 with h2' | ⟨h2e, h2r⟩
    · exact then_eq_lt.mpr (Or.inl h2')
    · rw [← heq _ _ h2e]
      exact then_eq_lt.mpr (Or.inr ⟨hrefl y, hp h1r h2r⟩)

theorem semverCompare_refl (v : SemVer) : semverCompare v v = .eq := by
  unfold semverCompare
  rw [natCompare_refl, natCompare_refl, natCompare_refl, preCompare_refl]
  rfl

theorem semverCompare_swap (a b : SemVer) :
    semverCompare b a = (semverCompare a b).swap := by
  unfold semverCompare
  rw [natCompare_swap a.major b.major, natCompare_swap a.minor b.minor,
    natCompare_swap a.patch b.patch, preCompare_swap a.pre b.pre,
    ← then_swap, ← then_swap, ← then_swap]

theorem semverCompare_lt_trans {a b c : SemVer} (h1 : semverCompare a b = .lt)
    (h2 : semverCompare b c = .lt) : semverCompare a c = .lt := by
  have hnateq : ∀ u v : Nat, natCompare u v = .eq → u = v :=
    fun _ _ h => natCompare_eq_iff.mp h
  exact then_lt_trans_step natCompare_refl hnateq natCompare_lt_trans
    (fun ha hb => then_lt_trans_step natCompare_refl hnateq natCompare_lt_trans
      (fun hc hd => then_lt_trans_step natCompare_refl hnateq natCompare_lt_trans
        (fun he hf => preCompare_lt_trans he hf) hc hd) ha hb) h1 h2

theorem versionCompare_refl (v : Version) : versionCompare v v = .eq := by
  match v with
  | .semver w => exact semverCompare_refl w
  | .alias a => exact lexCompare_refl charCompare_refl a

theorem versionCompare_swap (v w : Version) :
    versionCompare w v = (versionCompare v w).swap := by
  cases v <;> cases w <;> try rfl
  · exact semverCompare_swap _ _
  · exact lexCompare_swap charCompare_swap _ _

theorem versionCompare_lt_trans : ∀ {u v w : Version}, versionCompare u v = .lt →
    versionCompare v w = .lt → versionCompare u w = .lt := by
  intro u v w h1 h2
  cases u <;> cases v <;> cases w <;> try cases h1
  all_goals try cases h2
  all_goals try rfl
  · exact semverCompare_lt_trans h1 h2
  · exact lexCompare_lt_trans charCompare_refl (fun _ _ => charCompare_eq)
      charCompare_lt_trans _ _ _ h1 h2

/-! ## Helper lemmas about the command models -/

theorem replace_symlink_ok {fs : LinkFs} (p : FsPath)
    (h1 : fs.removeFails = false) (h2 : fs.createFails = false) :
    replace_symlink p fs = (.ok (), { fs with target := some p }) := by
  obtain ⟨t, r, c⟩ := fs
  cases h1
  cases h2
  rfl

theorem replace_symlink_createFail {fs : LinkFs} (p : FsPath)
    (h1 : fs.removeFails = false) (h2 : fs.createFails = true) :
    replace_symlink p fs = (.error .createErr, { fs with target := none }) := by
  obtain ⟨t, r, c⟩ := fs
  cases h1
  cases h2
  rfl

theorem replace_symlink_removeFailOnly {fs : LinkFs} (p : FsPath)
    (h1 : fs.removeFails = true) (h2 : fs.createFails = false) :
    replace_symlink p fs = (.ok (), { fs with target := some p }) := by
  obtain ⟨t, r, c⟩ := fs
  cases h1
  cases h2
  rfl

theorem replace_symlink_bothFail {fs : LinkFs} (p : FsPath)
    (h1 : fs.removeFails = true) (h2 : fs.createFails = true) :
    replace_symlink p fs = (.error .removeErr, fs) := by
  obtain ⟨t, r, c⟩ := fs
  cases h1
  cases h2
  rfl

theorem localApply_explicit (v : InputVersion) (anc : List (Option InputVersion))
    (config : FarmConfig) (fs : LinkFs) :
    localApply (some v) anc config fs = applyDetermined v config fs := rfl

theorem localApply_file {v : InputVersion} {anc : List (Option InputVersion)}
    (config : FarmConfig) (fs : LinkFs)
    (h : get_user_version_for_directory anc = some v) :
    localApply none anc config fs = applyDetermined v config fs := by
  unfold localApply
  rw [h]

theorem getUserVersion_none : ∀ {anc : List (Option InputVersion)},
    (∀ x ∈ anc, x = none) → get_user_version_for_directory anc = none := by
  intro anc
  induction anc with
  | nil => intro _; rfl
  | cons x rest ih =>
    intro h
    rw [h x (List.mem_cons_self _ _)]
    exact ih (fun y hy => h y (List.mem_cons_of_mem _ hy))

theorem localApply_cantInfer {anc : List (Option InputVersion)} {p : FsPath}
    (config : FarmConfig) (fs : LinkFs)
    (hanc : ∀ x ∈ anc, x = none) (hfp : config.farmPath = some p)
    (h1 : fs.removeFails = false) (h2 : fs.createFails = false) :
    localApply none anc config fs =
      (.error .cantInferVersion, { fs with target := some config.defaultVersionDir }) := by
  unfold localApply
  rw [getUserVersion_none hanc, hfp, replace_symlink_ok _ h1 h2]

theorem applyDetermined_notFound {v : InputVersion} (config : FarmConfig) (fs : LinkFs)
    (h : versions_dir config.base ++ [v.str] ∉ config.installed) :
    applyDetermined v config fs = (.error (.versionNotFound v), fs) := by
  unfold applyDetermined
  rw [if_neg h]

/-! ## Claim theorems -/

/-- C1: version resolution in `Local::apply` follows strict priority: an
explicit argument wins regardless of version files; otherwise the nearest
ancestor's version file (the walk stops at the first directory that has
one) supplies the version, behaving exactly as if it had been passed
explicitly; when neither exists the command fails with `CantInferVersion`
— it does not fall back to the global default as the resolved version —
and, as a side effect of that failure, repoints the shell's current-version
link at the global default directory. -/
theorem C1_resolution_priority :
    (∀ v anc anc' config fs,
      localApply (some v) anc config fs = localApply (some v) anc' config fs) ∧
    (∀ v (anc rest : List (Option InputVersion)) config fs,
      localApply none (some v :: rest) config fs = localApply (some v) anc config fs) ∧
    (∀ (pre rest : List (Option InputVersion)) v, (∀ x ∈ pre, x = none) →
      get_user_version_for_directory (pre ++ some v :: rest) = some v) ∧
    (∀ anc config fs p, (∀ x ∈ anc, x = none) → config.farmPath = some p →
      fs.removeFails = false → fs.createFails = false →
      localApply none anc config fs =
        (.error .cantInferVersion, { fs with target := some config.defaultVersionDir })) := by
  refine ⟨fun v anc anc' config fs => rfl, fun v anc rest config fs => ?_, ?_, ?_⟩
  · rw [localApply_file config fs
      (show get_user_version_for_directory (some v :: rest) = some v from rfl),
      localApply_explicit]
  · intro pre rest v h
    induction pre with
    | nil => rfl
    | cons x xs ih =>
      rw [List.cons_append, h x (List.mem_cons_self _ _)]
      show get_user_version_for_directory (xs ++ some v :: rest) = some v
      exact ih (fun y hy => h y (List.mem_cons_of_mem _ hy))
  · intro anc config fs p h1 h2 h3 h4
    exact localApply_cantInfer config fs h1 h2 h3 h4

theorem C1_resolution_priority_witness :
    localApply (some ⟨['x']⟩) [some ⟨['y']⟩] ⟨[], [['d']], some [['f']], []⟩ ⟨none, false, false⟩ =
      localApply (some ⟨['x']⟩) [] ⟨[], [['d']], some [['f']], []⟩ ⟨none, false, false⟩ ∧
    localApply none (some ⟨['y']⟩ :: [none]) ⟨[], [['d']], some [['f']], []⟩ ⟨none, false, false⟩ =
      localApply (some ⟨['y']⟩) [] ⟨[], [['d']], some [['f']], []⟩ ⟨none, false, false⟩ ∧
    get_user_version_for_directory ([none] ++ some ⟨['y']⟩ :: [some ⟨['z']⟩]) = some ⟨['y']⟩ ∧
    localApply none [none] ⟨[], [['d']], some [['f']], []⟩ ⟨some [['o']], false, false⟩ =
      (.error .cantInferVersion, ⟨some [['d']], false, false⟩) :=
  ⟨C1_resolution_priority.1 ⟨['x']⟩ [some ⟨['y']⟩] [] _ _,
   C1_resolution_priority.2.1 ⟨['y']⟩ [] [none] _ _,
   C1_resolution_priority.2.2.1 [none] [some ⟨['z']⟩] ⟨['y']⟩ (by decide),
   C1_resolution_priority.2.2.2 [none] ⟨[], [['d']], some [['f']], []⟩ ⟨some [['o']], false, false⟩
     [['f']] (by decide) rfl rfl rfl⟩

/-- C2 fails on the code: `replace_symlink` removes the old link *before*
attempting to create the new one, so when creation fails after a successful
removal the previously existing link is gone rather than left as it was;
and when both primitives fail, only the removal error is surfaced
(`deletion_result.and(err)` returns the removal error), not both combined. -/
theorem C2_replace_symlink_counterexample :
    (replace_symlink [['n']] ⟨some [['o']], false, true⟩).1 = .error .createErr ∧
    (replace_symlink [['n']] ⟨some [['o']], false, true⟩).2.target = none ∧
    (none : Option FsPath) ≠ some [['o']] ∧
    (replace_symlink [['n']] ⟨some [['o']], true, true⟩).1 = .error .removeErr ∧
    IoErr.removeErr ≠ IoErr.createErr := by decide

/-- C2 (amended): the switch removes the stale link first and then creates
the new one; if removal succeeds but creation fails the link is left
*removed* (the prior target is lost); if removal fails but creation
succeeds the removal failure goes unreported; if both fail, the removal
error alone is surfaced; if both succeed the link points at the new
target. -/
theorem C2_replace_symlink_policy (fromPath : FsPath) (fs : LinkFs) :
    (fs.removeFails = false → fs.createFails = true →
      replace_symlink fromPath fs = (.error .createErr, { fs with target := none })) ∧
    (fs.removeFails = true → fs.createFails = false →
      replace_symlink fromPath fs = (.ok (), { fs with target := some fromPath })) ∧
    (fs.removeFails = true → fs.createFails = true →
      replace_symlink fromPath fs = (.error .removeErr, fs)) ∧
    (fs.removeFails = false → fs.createFails = false →
      replace_symlink fromPath fs = (.ok (), { fs with target := some fromPath })) :=
  ⟨fun h1 h2 => replace_symlink_createFail fromPath h1 h2,
   fun h1 h2 => replace_symlink_removeFailOnly fromPath h1 h2,
   fun h1 h2 => replace_symlink_bothFail fromPath h1 h2,
   fun h1 h2 => replace_symlink_ok fromPath h1 h2⟩

theorem C2_replace_symlink_policy_witness :
    replace_symlink [['n']] ⟨some [['o']], true, false⟩ =
      (.ok (), ⟨some [['n']], true, false⟩) :=
  (C2_replace_symlink_policy [['n']] ⟨some [['o']], true, false⟩).2.1 rfl rfl

/-- C8: both the local and the global switch require the target
installation directory to exist and fail with `VersionNotFound` otherwise.
The global command is modelled from the spec (`commands/global.rs` is not
under `src/`). -/
theorem C8_switch_requires_installed (v : InputVersion)
    (anc : List (Option InputVersion)) (config : FarmConfig) (fs : LinkFs)
    (h : versions_dir config.base ++ [v.str] ∉ config.installed) :
    localApply (some v) anc config fs = (.error (.versionNotFound v), fs) ∧
    globalApply v config fs = (.error (.versionNotFound v), fs) := by
  constructor
  · rw [localApply_explicit]
    exact applyDetermined_notFound config fs h
  · unfold globalApply
    rw [if_neg h]

theorem C8_switch_requires_installed_witness :
    localApply (some ⟨['x']⟩) [] ⟨[], [['d']], none, []⟩ ⟨none, false, false⟩ =
      (.error (.versionNotFound ⟨['x']⟩), ⟨none, false, false⟩) ∧
    globalApply ⟨['x']⟩ ⟨[], [['d']], none, []⟩ ⟨none, false, false⟩ =
      (.error (.versionNotFound ⟨['x']⟩), ⟨none, false, false⟩) :=
  C8_switch_requires_installed ⟨['x']⟩ [] ⟨[], [['d']], none, []⟩ ⟨none, false, false⟩
    (by decide)

theorem applyDetermined_no_mutation {v : InputVersion} {config : FarmConfig}
    {fs : LinkFs} {e : LocalError} {fs2 : LinkFs}
    (h1 : fs.removeFails = false) (h2 : fs.createFails = false)
    (h : applyDetermined v config fs = (.error e, fs2)) : fs2 = fs := by
  unfold applyDetermined at h
  by_cases hin : versions_dir config.base ++ [v.str] ∈ config.installed
  · rw [if_pos hin] at h
    cases hfp : config.farmPath with
    | none =>
      rw [hfp] at h
      cases h
      rfl
    | some p =>
      rw [hfp, replace_symlink_ok _ h1 h2] at h
      cases h
  · rw [if_neg hin] at h
    cases h
    rfl

/-- C9 fails on the code as stated: it is true that a resolved version with
no installation directory yields `VersionNotFound` with no symlink
mutation, but the `CantInferVersion` path is *not* the only failure path
that mutates the active link — when the final symlink replacement itself
fails after its removal step succeeded, `Local::apply` returns an
`IoError` with the previous link already deleted. -/
theorem C9_mutating_failure_counterexample :
    localApply (some ⟨['x']⟩) []
        ⟨[], [['d']], some [['f']], [[("versions").toList, ['x']]]⟩
        ⟨some [['o']], false, true⟩ =
      (.error (.ioError .createErr), ⟨none, false, true⟩) ∧
    LocalError.ioError .createErr ≠ .cantInferVersion ∧
    (⟨none, false, true⟩ : LinkFs) ≠ ⟨some [['o']], false, true⟩ := by decide

/-- C9 (amended): whenever `Local::apply` resolves a version (explicitly or
from a version file) whose installation directory does not exist, it
returns `VersionNotFound` and the filesystem state — in particular the
active link — is completely untouched; and as long as the symlink
primitives themselves do not fail, the only failure outcome that mutates
the active link is the `CantInferVersion` path. -/
theorem C9_failure_atomicity :
    (∀ v anc config fs, versions_dir config.base ++ [v.str] ∉ config.installed →
      localApply (some v) anc config fs = (.error (.versionNotFound v), fs) ∧
      localApply none (some v :: anc) config fs = (.error (.versionNotFound v), fs)) ∧
    (∀ explicitV anc config fs e fs2, fs.removeFails = false → fs.createFails = false →
      localApply explicitV anc config fs = (.error e, fs2) → e ≠ .cantInferVersion →
      fs2 = fs) := by
  constructor
  · intro v anc config fs h
    constructor
    · rw [localApply_explicit]
      exact applyDetermined_notFound config fs h
    · rw [localApply_file config fs
        (show get_user_version_for_directory (some v :: anc) = some v from rfl)]
      exact applyDetermined_notFound config fs h
  · intro explicitV anc config fs e fs2 h1 h2 h hne
    cases explicitV with
    | some v =>
      rw [localApply_explicit] at h
      exact applyDetermined_no_mutation h1 h2 h
    | none =>
      cases hguv : get_user_version_for_directory anc with
      | some v =>
        rw [localApply_file config fs hguv] at h
        exact applyDetermined_no_mutation h1 h2 h
      | none =>
        unfold localApply at h
        rw [hguv] at h
        cases hfp : config.farmPath with
        | none =>
          rw [hfp] at h
          cases h
          rfl
        | some p =>
          rw [hfp, replace_symlink_ok _ h1 h2] at h
          cases h
          exact absurd rfl hne

theorem C9_failure_atomicity_witness :
    localApply (some ⟨['x']⟩) [] ⟨[], [['d']], none, []⟩ ⟨some [['o']], false, false⟩ =
      (.error (.versionNotFound ⟨['x']⟩), ⟨some [['o']], false, false⟩) ∧
    (⟨some [['o']], false, false⟩ : LinkFs) = ⟨some [['o']], false, false⟩ :=
  ⟨(C9_failure_atomicity.1 ⟨['x']⟩ [] ⟨[], [['d']], none, []⟩
      ⟨some [['o']], false, false⟩ (by decide)).1,
   C9_failure_atomicity.2 (some ⟨['x']⟩) [] ⟨[], [['d']], none, []⟩
      ⟨some [['o']], false, false⟩ (.versionNotFound ⟨['x']⟩) ⟨some [['o']], false, false⟩
      rfl rfl
      ((C9_failure_atomicity.1 ⟨['x']⟩ [] ⟨[], [['d']], none, []⟩
        ⟨some [['o']], false, false⟩ (by decide)).1)
      (by decide)⟩

/-- C7 fails on the code: an extracted archive with *multiple* top-level
entries is not rejected — there is no `ArchiveLayoutUnexpected` variant in
the install command's error type at all; `Install::apply` simply takes the
first entry returned by `read_dir` and proceeds, succeeding with the build
invoked on that first entry. -/
theorem C7_archive_layout_counterexample :
    installApply [] ⟨[], [], none, []⟩ [] ⟨200, false, [['a'], ['b']], false⟩ =
      ⟨.ok (), some [("versions").toList, (".downloads").toList, [], ['a']]⟩ := by decide

/-- C7 (amended): the external build step is invoked against the *first*
top-level entry found inside the extracted temp directory (additional
entries are silently ignored); an empty archive yields the `TarIsEmpty`
error (the `ArchiveEmpty` of the spec) with no build invoked; a 404
download response yields `VersionNotFound`. -/
theorem C7_install_build_selection (version : Str) (config : FarmConfig)
    (tmpName : Str) (env : InstallEnv) :
    (env.status = 404 → installApply version config tmpName env =
      ⟨.error (.versionNotFound version), none⟩) ∧
    (env.status ≠ 404 → env.extractFails = false → env.extracted = [] →
      installApply version config tmpName env = ⟨.error .tarIsEmpty, none⟩) ∧
    (∀ e rest, env.status ≠ 404 → env.extractFails = false → env.renameFails = false →
      env.extracted = e :: rest →
      installApply version config tmpName env =
        ⟨.ok (), some (versions_dir config.base ++
          [['.', 'd', 'o', 'w', 'n', 'l', 'o', 'a', 'd', 's'], tmpName, e])⟩) := by
  obtain ⟨st, ef, ex, rf⟩ := env
  refine ⟨?_, ?_, ?_⟩
  · intro h
    unfold installApply
    rw [if_pos h]
  · intro h1 h2 h3
    cases h2
    cases h3
    unfold installApply
    rw [if_neg h1]
    rfl
  · intro e rest h1 h2 h3 h4
    cases h2
    cases h3
    cases h4
    unfold installApply
    rw [if_neg h1]
    simp [List.append_assoc]

theorem C7_install_build_selection_witness :
    installApply ['2'] ⟨[], [], none, []⟩ [] ⟨404, false, [], false⟩ =
      ⟨.error (.versionNotFound ['2']), none⟩ ∧
    installApply ['2'] ⟨[], [], none, []⟩ [] ⟨200, false, [], false⟩ =
      ⟨.error .tarIsEmpty, none⟩ ∧
    installApply ['2'] ⟨[], [], none, []⟩ [] ⟨200, false, [['a']], false⟩ =
      ⟨.ok (), some (versions_dir [] ++
        [['.', 'd', 'o', 'w', 'n', 'l', 'o', 'a', 'd', 's'], [], ['a']])⟩ :=
  ⟨(C7_install_build_selection ['2'] ⟨[], [], none, []⟩ [] ⟨404, false, [], false⟩).1 rfl,
   (C7_install_build_selection ['2'] ⟨[], [], none, []⟩ [] ⟨200, false, [], false⟩).2.1
     (by decide) rfl rfl,
   (C7_install_build_selection ['2'] ⟨[], [], none, []⟩ [] ⟨200, false, [['a']], false⟩).2.2
     ['a'] [] (by decide) rfl rfl rfl⟩

/-- C3 fails on the code: `Version::parse` is not total.  A digit-leading
string that is not a valid semantic version — here the single character
`1` — makes `semver::Version::parse` fail, and `Version::parse` propagates
that failure instead of producing a value. -/
theorem C3_parse_counterexample : Version.parse ['1'] = none := by decide

/-- C3 (amended): parsing is deterministic and classifies every input by a
single test — if the lowercased input, after stripping every leading `v`,
does not start with a digit it always succeeds with an `Alias` holding the
lowercased input; if it does start with a digit it is handed to the
semantic-version parser, whose failure (e.g. on `1`) is propagated, so
`parse` is total only on non-digit-leading inputs. -/
theorem C3_parse_classification (s : Str) :
    (start_with_number ((lowerStr s).dropWhile (fun c => c = 'v')) = false →
      Version.parse s = some (.alias (lowerStr s))) ∧
    (start_with_number ((lowerStr s).dropWhile (fun c => c = 'v')) = true →
      Version.parse s =
        (semverParse ((lowerStr s).dropWhile (fun c => c = 'v'))).map .semver) := by
  constructor
  · intro h
    rw [versionParse_unfold, if_neg]
    rw [h]
    exact Bool.false_ne_true
  · intro h
    rw [versionParse_unfold, if_pos h]

theorem C3_parse_classification_witness :
    Version.parse ("Latest").toList = some (.alias (lowerStr ("Latest").toList)) ∧
    Version.parse ("1.0.0").toList =
      (semverParse ((lowerStr ("1.0.0").toList).dropWhile (fun c => c = 'v'))).map .semver :=
  ⟨(C3_parse_classification ("Latest").toList).1 (by decide),
   (C3_parse_classification ("1.0.0").toList).2 (by decide)⟩

/-- C4 fails on the code: the installation path of an Exact version is not
`installationsDir()/render(v)` — `Version::installation_path` appends a
further fixed `installation` component after the rendered version. -/
theorem C4_installation_path_counterexample :
    (Version.semver ⟨1, 0, 0, [], []⟩).installation_path [] ≠
      versions_dir [] ++ [Version.v_str (.semver ⟨1, 0, 0, [], []⟩)] := by decide

/-- C4 (amended): the installation path of an Exact version `v` is
`installationsDir()/render(v)/installation` (the alias path is
`aliasesDir()/name`), and both path functions are injective on their
version argument within their namespace — for Exact versions on all
well-formed semver values. -/
theorem C4_installation_path_shape :
    (∀ base v, (Version.semver v).installation_path base =
      versions_dir base ++ [Version.v_str (.semver v),
        ['i', 'n', 's', 't', 'a', 'l', 'l', 'a', 't', 'i', 'o', 'n']]) ∧
    (∀ base a, (Version.alias a).installation_path base = aliases_dir base ++ [a]) ∧
    (∀ base v w, svWf v = true → svWf w = true →
      (Version.semver v).installation_path base = (Version.semver w).installation_path base →
      v = w) ∧
    (∀ base a b,
      (Version.alias a).installation_path base = (Version.alias b).installation_path base →
      a = b) := by
  refine ⟨fun base v => rfl, fun base a => rfl, ?_, ?_⟩
  · intro base v w hv hw h
    unfold Version.installation_path at h
    have h2 := List.append_cancel_left h
    have h3 : Version.v_str (.semver v) = Version.v_str (.semver w) := by
      injection h2 with h2a h2b
    have h4 : semverRender v = semverRender w := by
      have : 'v' :: semverRender v = 'v' :: semverRender w := h3
      injection this
    have h5 : semverParse (semverRender v) = semverParse (semverRender w) := by rw [h4]
    rw [semverParse_semverRender hv, semverParse_semverRender hw] at h5
    exact Option.some.inj h5
  · intro base a b h
    unfold Version.installation_path at h
    have h2 := List.append_cancel_left h
    injection h2 with h2a h2b

theorem C4_installation_path_shape_witness :
    (Version.semver ⟨1, 0, 0, [], []⟩).installation_path [] =
      versions_dir [] ++ [Version.v_str (.semver ⟨1, 0, 0, [], []⟩),
        ['i', 'n', 's', 't', 'a', 'l', 'l', 'a', 't', 'i', 'o', 'n']] ∧
    (⟨1, 0, 0, [], []⟩ : SemVer) = ⟨1, 0, 0, [], []⟩ :=
  ⟨C4_installation_path_shape.1 [] ⟨1, 0, 0, [], []⟩,
   C4_installation_path_shape.2.2.1 [] ⟨1, 0, 0, [], []⟩ ⟨1, 0, 0, [], []⟩
     (by decide) (by decide) rfl⟩

theorem parse_alias_eq : ∀ {s a : Str}, Version.parse s = some (.alias a) →
    a = lowerStr s := by
  intro s a h
  rw [versionParse_unfold] at h
  split at h
  · cases hsp : semverParse ((lowerStr s).dropWhile (fun c => c = 'v')) with
    | none => rw [hsp] at h; cases h
    | some w => rw [hsp] at h; cases h
  · cases h
    rfl

/-- C5: the derived comparison of version identifiers is a total, transitive
order — transitive, with `compare v u` always the swap of `compare u v` and
`compare u u = eq`; Exact values order by semantic-version precedence (in
particular `1.0.0-rc1` sorts before `1.0.0`, both as produced by `parse`);
parsed Alias values order by case-folded lexical string order (their
payloads are the lowercased inputs, compared lexically); and an Exact value
is never equal to an Alias value, neither through the enum's own equality
nor through the `PartialEq<semver::Version>` instance. -/
theorem C5_compare_total_order :
    (∀ u v w : Version, versionCompare u v = .lt → versionCompare v w = .lt →
      versionCompare u w = .lt) ∧
    (∀ u v : Version, versionCompare v u = (versionCompare u v).swap) ∧
    (∀ u : Version, versionCompare u u = .eq) ∧
    (Version.parse ("1.0.0-rc1").toList =
        some (.semver ⟨1, 0, 0, [.alphanum ("rc1").toList], []⟩) ∧
      Version.parse ("1.0.0").toList = some (.semver ⟨1, 0, 0, [], []⟩) ∧
      versionCompare (.semver ⟨1, 0, 0, [.alphanum ("rc1").toList], []⟩)
        (.semver ⟨1, 0, 0, [], []⟩) = .lt) ∧
    (∀ s t a b, Version.parse s = some (.alias a) → Version.parse t = some (.alias b) →
      versionCompare (.alias a) (.alias b) =
        lexCompare charCompare (lowerStr s) (lowerStr t)) ∧
    (∀ v a, versionBeq (.semver v) (.alias a) = false ∧
      versionBeq (.alias a) (.semver v) = false) ∧
    (∀ a w, eqSemver (.alias a) w = false) := by
  refine ⟨fun u v w => versionCompare_lt_trans, versionCompare_swap, versionCompare_refl,
    by decide, ?_, fun v a => ⟨rfl, rfl⟩, fun a w => rfl⟩
  intro s t a b hs ht
  rw [parse_alias_eq hs, parse_alias_eq ht]
  rfl

theorem C5_compare_total_order_witness :
    versionCompare (.alias ['a']) (.alias ['c']) = .lt ∧
    versionCompare (.alias (lowerStr ("A").toList)) (.alias (lowerStr ("B").toList)) =
      lexCompare charCompare (lowerStr ("A").toList) (lowerStr ("B").toList) :=
  ⟨C5_compare_total_order.1 (.alias ['a']) (.alias ['b']) (.alias ['c'])
      (by decide) (by decide),
   C5_compare_total_order.2.2.2.2.1 ("A").toList ("B").toList
      (lowerStr ("A").toList) (lowerStr ("B").toList) (by decide) (by decide)⟩

/-- C6 fails on the code: the round trip is not exact up to `v`-prefix
normalization alone, because `parse` lowercases its whole input.  For
`1.0.0-RC1` the rendered string is `v1.0.0-rc1`, which differs from the
input beyond the leading `v`, and the rendered value does not denote the
same semantic version as the original (case-sensitive) input. -/
theorem C6_roundtrip_counterexample :
    Version.parse ("1.0.0-RC1").toList =
      some (.semver ⟨1, 0, 0, [.alphanum ("rc1").toList], []⟩) ∧
    Version.v_str (.semver ⟨1, 0, 0, [.alphanum ("rc1").toList], []⟩) =
      ("v1.0.0-rc1").toList ∧
    ("v1.0.0-rc1").toList ≠ 'v' :: ("1.0.0-RC1").toList ∧
    semverParse ("1.0.0-RC1").toList ≠
      some ⟨1, 0, 0, [.alphanum ("rc1").toList], []⟩ := by decide

/-- C6 (amended): for every string `s` that parses to an Exact version `v`,
`render(v)` re-parses to exactly `parse(s)`; `v` denotes the semantic
version of the lowercased, `v`-stripped input; the round trip is
byte-for-byte up to normalizing the leading `v` run, ASCII lowercasing and
whitespace trimming; and `render` is the identity on Alias values. -/
theorem C6_roundtrip (s : Str) (v : SemVer)
    (h : Version.parse s = some (.semver v)) :
    Version.parse (Version.v_str (.semver v)) = some (.semver v) ∧
    semverParse ((lowerStr s).dropWhile (fun c => c = 'v')) = some v ∧
    Version.v_str (.semver v) =
      'v' :: trimStr ((lowerStr s).dropWhile (fun c => c = 'v')) ∧
    (∀ a, Version.v_str (.alias a) = a) := by
  obtain ⟨hwf, hlo, hsp, hrender⟩ := parse_semver_canonical h
  refine ⟨parse_vstr_semver hwf hlo, hsp, ?_, fun a => rfl⟩
  show 'v' :: semverRender v = _
  rw [hrender]

theorem C6_roundtrip_witness :
    Version.parse (Version.v_str (.semver ⟨1, 0, 0, [.alphanum ("rc1").toList], []⟩)) =
      some (.semver ⟨1, 0, 0, [.alphanum ("rc1").toList], []⟩) ∧
    Version.v_str (.semver ⟨1, 0, 0, [.alphanum ("rc1").toList], []⟩) =
      'v' :: trimStr ((lowerStr ("V1.0.0-RC1").toList).dropWhile (fun c => c = 'v')) :=
  have h : Version.parse ("V1.0.0-RC1").toList =
      some (.semver ⟨1, 0, 0, [.alphanum ("rc1").toList], []⟩) := by decide
  ⟨(C6_roundtrip ("V1.0.0-RC1").toList ⟨1, 0, 0, [.alphanum ("rc1").toList], []⟩ h).1,
   (C6_roundtrip ("V1.0.0-RC1").toList ⟨1, 0, 0, [.alphanum ("rc1").toList], []⟩ h).2.2.1⟩

theorem dropWhile_replicate_v (n : Nat) (t : Str) :
    (List.replicate n 'v' ++ t).dropWhile (fun c => c = 'v') =
      t.dropWhile (fun c => c = 'v') := by
  induction n with
  | zero => simp
  | succ k ih =>
    rw [List.replicate_succ, List.cons_append, List.dropWhile_cons, if_pos (by decide)]
    exact ih

theorem dropWhile_v_of_digit_head {t : Str} (h : start_with_number t = true) :
    t.dropWhile (fun c => c = 'v') = t := by
  cases t with
  | nil => cases h
  | cons c r =>
    have hd : isDigitCh c = true := by simpa [start_with_number] using h
    rw [List.dropWhile_cons, if_neg]
    intro hc
    rw [of_decide_eq_true hc] at hd
    simp [isDigitCh] at hd

/-- C10: parsing is invariant under case for both variants — `parse(s)`
always equals `parse(lowercase(s))`; every maximal run of leading `v` or
`V` characters is stripped before classification, so for digit-leading
content any number of `v`s in front changes nothing; and the rendered form
of every parsed Exact version is itself entirely lowercase. -/
theorem C10_case_and_v_invariance :
    (∀ s, Version.parse s = Version.parse (lowerStr s)) ∧
    (∀ n s, start_with_number (lowerStr s) = true →
      Version.parse (List.replicate n 'v' ++ s) = Version.parse s) ∧
    (∀ n s, start_with_number (lowerStr s) = true →
      Version.parse (List.replicate n 'V' ++ s) = Version.parse s) ∧
    (∀ s v, Version.parse s = some (.semver v) →
      lowerStr (Version.v_str (.semver v)) = Version.v_str (.semver v)) := by
  have hvv : lowerCh 'v' = 'v' := by decide
  have hVv : lowerCh 'V' = 'v' := by decide
  have hlrep : ∀ ch, lowerCh ch = 'v' → ∀ n (s : Str),
      lowerStr (List.replicate n ch ++ s) = List.replicate n 'v' ++ lowerStr s := by
    intro ch hch n s
    unfold lowerStr
    rw [List.map_append, List.map_replicate, hch]
  have hmain : ∀ ch, lowerCh ch = 'v' → ∀ n s, start_with_number (lowerStr s) = true →
      Version.parse (List.replicate n ch ++ s) = Version.parse s := by
    intro ch hch n s h
    rw [versionParse_unfold, versionParse_unfold, hlrep ch hch n s,
      dropWhile_replicate_v, dropWhile_v_of_digit_head h, if_pos h, if_pos h]
  refine ⟨?_, hmain 'v' hvv, hmain 'V' hVv, ?_⟩
  · intro s
    rw [versionParse_unfold, versionParse_unfold, lowerStr_idem]
  · intro s v h
    obtain ⟨hwf, hlo, _, _⟩ := parse_semver_canonical h
    show lowerCh 'v' :: lowerStr (semverRender v) = 'v' :: semverRender v
    rw [hlo, hvv]

theorem C10_case_and_v_invariance_witness :
    Version.parse ("V1.0.0-RC1").toList = Version.parse (lowerStr ("V1.0.0-RC1").toList) ∧
    Version.parse (List.replicate 2 'v' ++ ("1.0.0").toList) =
      Version.parse ("1.0.0").toList ∧
    Version.parse (List.replicate 2 'V' ++ ("1.0.0").toList) =
      Version.parse ("1.0.0").toList ∧
    lowerStr (Version.v_str (.semver ⟨1, 0, 0, [.alphanum ("rc1").toList], []⟩)) =
      Version.v_str (.semver ⟨1, 0, 0, [.alphanum ("rc1").toList], []⟩) :=
  ⟨C10_case_and_v_invariance.1 ("V1.0.0-RC1").toList,
   C10_case_and_v_invariance.2.1 2 ("1.0.0").toList (by decide),
   C10_case_and_v_invariance.2.2.1 2 ("1.0.0").toList (by decide),
   C10_case_and_v_invariance.2.2.2 ("1.0.0-rc1").toList
     ⟨1, 0, 0, [.alphanum ("rc1").toList], []⟩ (by decide)⟩
